import Mathlib

/-!
Verification of the style-expression core of the repository
(`src/ol/expr/expression.js`): the encoded-expression parser, literal
coercion, the parsing context with its accessor registration, the
accessor-value processor, and (modelled from the spec, since
`src/ol/expr/cpu.js` is not in the sources) the interpolation evaluator.

JavaScript values are embedded as the inductive `JSVal`; JS numbers are
idealized as rationals (`ℚ`), which is exact for every value the tests
exercise (floating-point rounding itself is out of scope).  Parsing is
embedded in a state monad `PM` over the parsing context that keeps the
context on errors, exactly as thrown JS exceptions leave prior mutations of
the context in place.  Recursion over encoded expressions uses an explicit
depth budget (`fuel`); the public `parse` wrapper supplies a budget that is
always sufficient because every recursive step descends to a structural
subterm.
-/

set_option maxHeartbeats 1000000

namespace OLExpr

/-- The closed set of value types (`BooleanType` … `SizeType`). -/
inductive Ty where
  | boolean
  | number
  | string
  | color
  | numberArray
  | size
deriving DecidableEq, Repr

/-- The string name of each type, as in the JS constants. -/
def Ty.name : Ty → String
  | .boolean => "boolean"
  | .number => "number"
  | .string => "string"
  | .color => "color"
  | .numberArray => "number[]"
  | .size => "size"

/-- An embedded JavaScript value: the input domain of `parse` and of
`processAccessorValues` (null, booleans, numbers, strings, arrays, plain
objects).  Numbers are idealized as rationals. -/
inductive JSVal where
  | null
  | bool (b : Bool)
  | num (q : ℚ)
  | str (s : String)
  | arr (items : List JSVal)
  | obj (fields : List (String × JSVal))
deriving Repr

mutual

/-- Boolean equality on embedded JS values. -/
def JSVal.beq : JSVal → JSVal → Bool
  | .null, .null => true
  | .bool x, .bool y => x = y
  | .num x, .num y => x = y
  | .str x, .str y => x = y
  | .arr xs, .arr ys => JSVal.beqList xs ys
  | .obj fs, .obj gs => JSVal.beqFields fs gs
  | _, _ => false

/-- Pointwise equality of JS value lists. -/
def JSVal.beqList : List JSVal → List JSVal → Bool
  | [], [] => true
  | x :: xs, y :: ys => JSVal.beq x y && JSVal.beqList xs ys
  | _, _ => false

/-- Pointwise equality of JS object field lists. -/
def JSVal.beqFields : List (String × JSVal) → List (String × JSVal) → Bool
  | [], [] => true
  | (k, x) :: xs, (k', y) :: ys => k = k' && (JSVal.beq x y && JSVal.beqFields xs ys)
  | _, _ => false

end

mutual

theorem JSVal.beq_iff : ∀ a b : JSVal, JSVal.beq a b = true ↔ a = b
  | .null, .null => by simp [JSVal.beq]
  | .bool x, .bool y => by simp [JSVal.beq]
  | .num x, .num y => by simp [JSVal.beq]
  | .str x, .str y => by simp [JSVal.beq]
  | .arr xs, .arr ys => by
    simp only [JSVal.beq, JSVal.beqList_iff xs ys, JSVal.arr.injEq]
  | .obj fs, .obj gs => by
    simp only [JSVal.beq, JSVal.beqFields_iff fs gs, JSVal.obj.injEq]
  | .null, .bool _ | .null, .num _ | .null, .str _ | .null, .arr _ | .null, .obj _
  | .bool _, .null | .bool _, .num _ | .bool _, .str _ | .bool _, .arr _ | .bool _, .obj _
  | .num _, .null | .num _, .bool _ | .num _, .str _ | .num _, .arr _ | .num _, .obj _
  | .str _, .null | .str _, .bool _ | .str _, .num _ | .str _, .arr _ | .str _, .obj _
  | .arr _, .null | .arr _, .bool _ | .arr _, .num _ | .arr _, .str _ | .arr _, .obj _
  | .obj _, .null | .obj _, .bool _ | .obj _, .num _ | .obj _, .str _ | .obj _, .arr _ => by
    simp [JSVal.beq]

theorem JSVal.beqList_iff : ∀ xs ys : List JSVal, JSVal.beqList xs ys = true ↔ xs = ys
  | [], [] => by simp [JSVal.beqList]
  | x :: xs, y :: ys => by
    simp [JSVal.beqList, JSVal.beq_iff x y, JSVal.beqList_iff xs ys]
  | [], _ :: _ => by simp [JSVal.beqList]
  | _ :: _, [] => by simp [JSVal.beqList]

theorem JSVal.beqFields_iff :
    ∀ fs gs : List (String × JSVal), JSVal.beqFields fs gs = true ↔ fs = gs
  | [], [] => by simp [JSVal.beqFields]
  | (k, x) :: xs, (k', y) :: ys => by
    simp [JSVal.beqFields, JSVal.beq_iff x y, JSVal.beqFields_iff xs ys, Prod.ext_iff,
      and_assoc]
  | [], _ :: _ => by simp [JSVal.beqFields]
  | _ :: _, [] => by simp [JSVal.beqFields]

end

instance : DecidableEq JSVal := fun a b => decidable_of_iff _ (JSVal.beq_iff a b)

/-- An accessor path segment: `withAccessorArgs` only pushes values of JS
type string or number onto the path. -/
inductive Seg where
  | str (s : String)
  | num (q : ℚ)
deriving DecidableEq, Repr

/-- The value carried by a literal expression node. -/
inductive LV where
  | b (x : Bool)
  | n (q : ℚ)
  | s (x : String)
  | ns (l : List ℚ)
deriving DecidableEq, Repr

/-- Expression AST: `LiteralExpression` and `CallExpression`. -/
inductive Expr where
  | lit (type : Ty) (value : LV)
  | call (type : Ty) (operator : String) (args : List Expr)
deriving Repr

mutual

/-- Boolean equality on expressions. -/
def Expr.beq : Expr → Expr → Bool
  | .lit t v, .lit t' v' => t = t' && v = v'
  | .call t o a, .call t' o' a' => t = t' && (o = o' && Expr.beqList a a')
  | _, _ => false

/-- Pointwise equality of expression lists. -/
def Expr.beqList : List Expr → List Expr → Bool
  | [], [] => true
  | x :: xs, y :: ys => Expr.beq x y && Expr.beqList xs ys
  | _, _ => false

end

mutual

theorem Expr.beqExpr_iff : ∀ a b : Expr, Expr.beq a b = true ↔ a = b
  | .lit t v, .lit t' v' => by simp [Expr.beq]
  | .call t o a, .call t' o' a' => by
    simp [Expr.beq, Expr.beqExprList_iff a a']
  | .lit _ _, .call _ _ _ => by simp [Expr.beq]
  | .call _ _ _, .lit _ _ => by simp [Expr.beq]

theorem Expr.beqExprList_iff : ∀ xs ys : List Expr, Expr.beqList xs ys = true ↔ xs = ys
  | [], [] => by simp [Expr.beqList]
  | x :: xs, y :: ys => by
    simp [Expr.beqList, Expr.beqExpr_iff x y, Expr.beqExprList_iff xs ys]
  | [], _ :: _ => by simp [Expr.beqList]
  | _ :: _, [] => by simp [Expr.beqList]

end

instance : DecidableEq Expr := fun a b => decidable_of_iff _ (Expr.beqExpr_iff a b)

/-- The `type` field common to both expression classes. -/
def Expr.type : Expr → Ty
  | .lit t _ => t
  | .call t _ _ => t

/-! ## Decimal digits and number formatting

`JSON.stringify` and JS string conversion print numbers in decimal.  We
build the printer from scratch so that we can later prove it injective. -/

/-- The character for a single decimal digit (digits ≥ 10 never occur). -/
def digitChar : Nat → Char
  | 0 => '0'
  | 1 => '1'
  | 2 => '2'
  | 3 => '3'
  | 4 => '4'
  | 5 => '5'
  | 6 => '6'
  | 7 => '7'
  | 8 => '8'
  | _ => '9'

/-- Decimal digits of a natural number, most significant first. -/
def natChars (n : Nat) : List Char :=
  if _h : n < 10 then [digitChar n]
  else natChars (n / 10) ++ [digitChar (n % 10)]
decreasing_by exact Nat.div_lt_self (by omega) (by omega)

/-- Read a digit character back as its value. -/
def charVal (c : Char) : Nat := c.toNat - 48

/-- Fold a digit list back into a natural number. -/
def charsToNat (l : List Char) : Nat :=
  l.foldl (fun a c => 10 * a + charVal c) 0

theorem charsToNat_aux (l : List Char) (a : Nat) :
    l.foldl (fun a c => 10 * a + charVal c) a =
      a * 10 ^ l.length + l.foldl (fun a c => 10 * a + charVal c) 0 := by
  induction l generalizing a with
  | nil => simp
  | cons c t ih =>
    simp only [List.foldl_cons, List.length_cons]
    rw [ih (10 * a + charVal c), ih (10 * 0 + charVal c)]
    ring

theorem charVal_digitChar (d : Nat) (h : d < 10) : charVal (digitChar d) = d := by
  interval_cases d <;> rfl

theorem charsToNat_natChars (n : Nat) : charsToNat (natChars n) = n := by
  rw [natChars]
  split
  · simp [charsToNat, charVal_digitChar n (by omega)]
  · rename_i h
    have ih := charsToNat_natChars (n / 10)
    simp only [charsToNat, List.foldl_append, List.foldl_cons, List.foldl_nil]
    unfold charsToNat at ih
    rw [ih, charVal_digitChar (n % 10) (by omega)]
    omega
decreasing_by exact Nat.div_lt_self (by omega) (by omega)

theorem natChars_injective : Function.Injective natChars := by
  intro a b h
  have := charsToNat_natChars a
  rw [h, charsToNat_natChars] at this
  omega

theorem digitChar_isDigit (d : Nat) : (digitChar d).isDigit := by
  unfold digitChar
  split <;> decide

/-- `natChars` produces only digit characters. -/
theorem natChars_digits (n : Nat) : ∀ c ∈ natChars n, c.isDigit := by
  rw [natChars]
  split
  · intro c hc
    simp only [List.mem_singleton] at hc
    subst hc
    exact digitChar_isDigit n
  · intro c hc
    simp only [List.mem_append, List.mem_singleton] at hc
    rcases hc with hc | hc
    · exact natChars_digits (n / 10) c hc
    · subst hc
      exact digitChar_isDigit (n % 10)
decreasing_by exact Nat.div_lt_self (by omega) (by omega)

theorem natChars_ne_nil (n : Nat) : natChars n ≠ [] := by
  rw [natChars]; split <;> simp

/-- The string form of a natural number. -/
def natStr (n : Nat) : String := String.mk (natChars n)

/-! ## Printing rationals

JS prints a finite double in the decimal form that round-trips; every
finite double is a dyadic rational, so its exact value has a finite decimal
expansion and the idealized printer below produces exactly that expansion
(integers without a decimal point).  Rationals whose denominator is not of
the form `2^a * 5^b` represent no double at all; for totality they are
printed in an explicit fraction form that no decimal output can collide
with. -/

/-- The least exponent `k` with `den ∣ 10^k`, when one exists
(searching `k ≤ den` suffices because `2^a * 5^b ≥ max a b`). -/
def decExp (den : Nat) : Option Nat :=
  (List.range (den + 1)).find? fun k => 10 ^ k % den == 0

/-- Left-pad a digit list with zeros to the given width. -/
def zeroPad (k : Nat) (l : List Char) : List Char :=
  List.replicate (k - l.length) '0' ++ l

/-- Decimal characters of a non-negative rational. -/
def magChars (q : ℚ) : List Char :=
  if q.den = 1 then natChars q.num.toNat
  else
    match decExp q.den with
    | some k =>
      let nval : Nat := q.num.toNat * 10 ^ k / q.den
      natChars (nval / 10 ^ k) ++ '.' :: zeroPad k (natChars (nval % 10 ^ k))
    | none => natChars q.num.toNat ++ '/' :: natChars q.den

/-- Characters of a rational in JS number-printing style. -/
def numChars (q : ℚ) : List Char :=
  if q < 0 then '-' :: magChars (-q) else magChars q

/-- The string JS prints for an (idealized) number. -/
def numStr (q : ℚ) : String := String.mk (numChars q)

/-! ## JSON serialization (`JSON.stringify`)

Used by `keyForAccessor` and in two parser error messages.  Control
characters other than the five with short escapes are left unescaped; they
cannot occur in the inputs this development evaluates. -/

/-- JSON string escaping for one character. -/
def escapeChar (c : Char) : List Char :=
  if c = '"' then ['\\', '"']
  else if c = '\\' then ['\\', '\\']
  else if c = '\n' then ['\\', 'n']
  else if c = '\r' then ['\\', 'r']
  else if c = '\t' then ['\\', 't']
  else if c = '\x08' then ['\\', 'b']
  else if c = '\x0c' then ['\\', 'f']
  else [c]

/-- JSON string escaping for a character list. -/
def escChars : List Char → List Char
  | [] => []
  | c :: rest => escapeChar c ++ escChars rest

/-- A JSON string literal: quotes around the escaped body. -/
def quoteChars (s : List Char) : List Char :=
  '"' :: escChars s ++ ['"']

mutual

/-- `JSON.stringify` of an embedded JS value (no spacing). -/
def jsonChars : JSVal → List Char
  | .null => ['n'] ++ ['u', 'l', 'l']
  | .bool true => ['t'] ++ ['r', 'u', 'e']
  | .bool false => ['f'] ++ ['a', 'l', 's', 'e']
  | .num q => numChars q
  | .str s => quoteChars s.data
  | .arr items => '[' :: jsonItems items ++ [']']
  | .obj fields => '{' :: jsonFields fields ++ ['}']

/-- Comma-separated serialization of array items. -/
def jsonItems : List JSVal → List Char
  | [] => []
  | [x] => jsonChars x
  | x :: rest => jsonChars x ++ ',' :: jsonItems rest

/-- Comma-separated serialization of object fields. -/
def jsonFields : List (String × JSVal) → List Char
  | [] => []
  | [(k, v)] => quoteChars k.data ++ ':' :: jsonChars v
  | (k, v) :: rest => quoteChars k.data ++ ':' :: jsonChars v ++ ',' :: jsonFields rest

end

/-- `JSON.stringify` as a string. -/
def jsonStr (v : JSVal) : String := String.mk (jsonChars v)

/-! ## JS `String()`, `Number()` and `Boolean()` conversions -/

mutual

/-- The characters of JS `String(v)`. -/
def jsStrChars : JSVal → List Char
  | .null => ['n'] ++ ['u', 'l', 'l']
  | .bool true => ['t'] ++ ['r', 'u', 'e']
  | .bool false => ['f'] ++ ['a', 'l', 's', 'e']
  | .num q => numChars q
  | .str s => s.data
  | .arr items => arrJoinChars items
  | .obj _ => "[object Object]".data

/-- `Array.prototype.toString`: elements joined with commas, where a null
(or undefined) element contributes an empty string. -/
def arrJoinChars : List JSVal → List Char
  | [] => []
  | [x] => arrElemChars x
  | x :: rest => arrElemChars x ++ ',' :: arrJoinChars rest

/-- One array element inside a join. -/
def arrElemChars : JSVal → List Char
  | .null => []
  | v => jsStrChars v

end

/-- JS `String(v)`. -/
def jsToString (v : JSVal) : String := String.mk (jsStrChars v)

/-- Whitespace for `Number(string)` trimming. -/
def isSpaceChar (c : Char) : Bool :=
  c = ' ' || c = '\t' || c = '\n' || c = '\r' || c = '\x0c' || c = '\x0b'

/-- Parse an unsigned decimal mantissa with optional fraction and exponent;
returns `none` for `NaN`.  (Hex/octal/binary literals and `Infinity` are
not modelled; they do not occur in this repository's expressions.) -/
def parseDecimal (l : List Char) : Option ℚ :=
  let intDigits := l.takeWhile Char.isDigit
  let rest1 := l.dropWhile Char.isDigit
  let fracPair : List Char × List Char :=
    match rest1 with
    | '.' :: r => (r.takeWhile Char.isDigit, r.dropWhile Char.isDigit)
    | _ => ([], rest1)
  let fracDigits := fracPair.1
  let rest2 := fracPair.2
  if intDigits.isEmpty && fracDigits.isEmpty then none
  else
    let mant : ℚ :=
      (charsToNat intDigits : ℚ) + (charsToNat fracDigits : ℚ) / 10 ^ fracDigits.length
    match rest2 with
    | [] => some mant
    | e :: r =>
      if e = 'e' || e = 'E' then
        let sign : Bool := r.head? = some '-'
        let r2 := if r.head? = some '-' || r.head? = some '+' then r.tail else r
        let expDigits := r2.takeWhile Char.isDigit
        if expDigits.isEmpty || !(r2.dropWhile Char.isDigit).isEmpty then none
        else some (if sign then mant / 10 ^ charsToNat expDigits
                   else mant * 10 ^ charsToNat expDigits)
      else none

/-- JS `Number(string)`: trimmed empty string is `0`; otherwise a signed
decimal literal, `none` standing for `NaN`. -/
def strToNum (s : String) : Option ℚ :=
  let l := (s.data.dropWhile isSpaceChar).reverse.dropWhile isSpaceChar |>.reverse
  match l with
  | [] => some 0
  | '-' :: r => (parseDecimal r).map Neg.neg
  | '+' :: r => parseDecimal r
  | _ => parseDecimal l

/-- JS `Number(v)`, with `none` standing for `NaN`. -/
def toNumber : JSVal → Option ℚ
  | .null => some 0
  | .bool b => some (if b then 1 else 0)
  | .num q => some q
  | .str s => strToNum s
  | .arr items => strToNum (String.mk (arrJoinChars items))
  | .obj _ => none

/-- JS `Boolean(v)` truthiness. -/
def truthy : JSVal → Bool
  | .null => false
  | .bool b => b
  | .num q => q != 0
  | .str s => s != ""
  | .arr _ => true
  | .obj _ => true

/-! ## Parsing context and accessors -/

/-- Accessor metadata recorded during parsing (`PreAccessorInfo`): the path,
the declared type, the generated slug, and the optional default value. -/
structure AccessorInfo where
  path : List Seg
  type : Ty
  slug : String
  dflt : Option JSVal
deriving DecidableEq, Repr

/-- The mutable parsing context: accessor metadata keyed by the canonical
accessor key, plus the two usage flags.  The fields `vars` and `props`
embed the JS fields `variables` and `properties` (those identifiers are
reserved words in Lean). -/
structure ParsingContext where
  vars : List (String × AccessorInfo)
  props : List (String × AccessorInfo)
  featureId : Bool
  geometryType : Bool
deriving DecidableEq, Repr

/-- `newParsingContext()`. -/
def newParsingContext : ParsingContext := ⟨[], [], false, false⟩

/-- Lookup in an insertion-ordered association list (JS object lookup). -/
def lookupKey (k : String) : List (String × AccessorInfo) → Option AccessorInfo
  | [] => none
  | (k', i) :: rest => if k' = k then some i else lookupKey k rest

/-- Lookup of a field of a JS object literal. -/
def lookupField (k : String) : List (String × JSVal) → Option JSVal
  | [] => none
  | (k', v) :: rest => if k' = k then some v else lookupField k rest

/-! ## The parsing monad

State (the parsing context) survives errors, exactly as a thrown JS
exception leaves earlier mutations of the shared context in place. -/

/-- Parsing computations: state plus string errors, state kept on error. -/
def PM (α : Type) : Type := ParsingContext → Except String α × ParsingContext

/-- Monadic return for `PM`. -/
def PM.pure (a : α) : PM α := fun s => (Except.ok a, s)

/-- Monadic bind for `PM`. -/
def PM.bind (m : PM α) (k : α → PM β) : PM β := fun s =>
  match m s with
  | (Except.ok a, s') => k a s'
  | (Except.error e, s') => (Except.error e, s')

instance : Monad PM where
  pure := PM.pure
  bind := PM.bind

/-- Throw a parse error. -/
def perr (msg : String) : PM α := fun s => (Except.error msg, s)

/-- Lift a stateless computation. -/
def liftE (e : Except String α) : PM α := fun s => (e, s)

/-- Re-wrap the message of an error (a JS `catch` + `throw new Error`). -/
def mapErr (f : String → String) (m : PM α) : PM α := fun s =>
  match m s with
  | (Except.ok a, s') => (Except.ok a, s')
  | (Except.error e, s') => (Except.error (f e), s')

@[simp] theorem PM.bind_apply (m : PM α) (k : α → PM β) (s : ParsingContext) :
    (m >>= k) s =
      match m s with
      | (Except.ok a, s') => k a s'
      | (Except.error e, s') => (Except.error e, s') := rfl

@[simp] theorem PM.pure_apply (a : α) (s : ParsingContext) :
    (Pure.pure a : PM α) s = (Except.ok a, s) := rfl

@[simp] theorem perr_apply (msg : String) (s : ParsingContext) :
    (perr msg : PM α) s = (Except.error msg, s) := rfl

@[simp] theorem liftE_apply (e : Except String α) (s : ParsingContext) :
    liftE e s = (e, s) := rfl

@[simp] theorem mapErr_apply (f : String → String) (m : PM α) (s : ParsingContext) :
    mapErr f m s =
      match m s with
      | (Except.ok a, s') => (Except.ok a, s')
      | (Except.error e, s') => (Except.error (f e), s') := rfl

/-! ## The accessor key and registration (`keyForAccessor`, `withAccessorArgs`) -/

/-- A path segment as the JS value it came from. -/
def segToJSVal : Seg → JSVal
  | .str s => .str s
  | .num q => .num q

/-- JS `String()` of a path segment (used by `path.join("_")`). -/
def segToChars : Seg → List Char
  | .str s => s.data
  | .num q => numChars q

/-- The `config` object serialized by `keyForAccessor`: `{path, type}` plus
`default` exactly when the options carry one. -/
def accessorConfig (path : List Seg) (t : Ty) (dflt : Option JSVal) : JSVal :=
  .obj (("path", .arr (path.map segToJSVal)) :: ("type", .str t.name) ::
    (match dflt with
     | some d => [("default", d)]
     | none => []))

/-- `keyForAccessor(path, type, options)`: `JSON.stringify` of the config. -/
def keyForAccessor (path : List Seg) (t : Ty) (dflt : Option JSVal) : String :=
  jsonStr (accessorConfig path t dflt)

/-- `path.join("_")`. -/
def joinSegs : List Seg → List Char
  | [] => []
  | [x] => segToChars x
  | x :: rest => segToChars x ++ '_' :: joinSegs rest

/-- The slug assigned at first registration: `path.join("_") + "_" + count`. -/
def slugOf (path : List Seg) (count : Nat) : String :=
  String.mk (joinSegs path ++ '_' :: natChars count)

/-- The registration half of `withAccessorArgs` (source lines 601–614):
produce the key-literal argument list and, when the key is new, append a
metadata entry whose slug counts the entries already present. -/
def registerIn (infoLookup : List (String × AccessorInfo)) (path : List Seg) (t : Ty)
    (fields : List (String × JSVal)) : List Expr × List (String × AccessorInfo) :=
  let dflt := lookupField ("default") fields
  let key := keyForAccessor path t dflt
  let args := [Expr.lit .string (.s key)]
  match lookupKey key infoLookup with
  | some _ => (args, infoLookup)
  | none =>
    (args, infoLookup ++ [(key, ⟨path, t, slugOf path infoLookup.length, dflt⟩)])

/-- The path/options extraction loop of `withAccessorArgs`: string and
number arguments extend the path; a trailing plain object is the options
record; anything else fails. -/
def extractAccessor : List JSVal → Except String (List Seg × List (String × JSVal))
  | [] => .ok ([], [])
  | [JSVal.obj fields] => .ok ([], fields)
  | x :: rest =>
    match x with
    | .num q => (extractAccessor rest).map fun p => (Seg.num q :: p.1, p.2)
    | .str s => (extractAccessor rest).map fun p => (Seg.str s :: p.1, p.2)
    | _ =>
      .error ("expected a string key or numeric array index for a get operation, got "
        ++ jsToString x)

/-- `withGetArgs`: accessor registration against `context.properties`. -/
def withGetArgs (args : List JSVal) (t : Ty) : PM (List Expr) := fun s =>
  match extractAccessor args with
  | .error e => (.error e, s)
  | .ok (path, fields) =>
    let r := registerIn s.props path t fields
    (.ok r.1, { s with props := r.2 })

/-- `withVarArgs`: accessor registration against `context.variables`. -/
def withVarArgs (args : List JSVal) (t : Ty) : PM (List Expr) := fun s =>
  match extractAccessor args with
  | .error e => (.error e, s)
  | .ok (path, fields) =>
    let r := registerIn s.vars path t fields
    (.ok r.1, { s with vars := r.2 })

/-- `usesFeatureId`: flips the feature-id flag. -/
def usesFeatureId : PM Unit := fun s => (.ok (), { s with featureId := true })

/-- `usesGeometryType`: flips the geometry-type flag. -/
def usesGeometryType : PM Unit := fun s => (.ok (), { s with geometryType := true })

/-- `withNoArgs`. -/
def withNoArgs (op : String) (args : List JSVal) : Except String (List Expr) :=
  if args.isEmpty then .ok []
  else .error ("expected no arguments for " ++ op ++ " operation")

/-- `hasArgsCount(min, max)`; `none` as the maximum stands for `Infinity`. -/
def checkArgsCount (minA : Nat) (maxA : Option Nat) (op : String) (n : Nat) :
    Except String Unit :=
  match maxA with
  | some mx =>
    if minA = mx then
      if n ≠ minA then
        .error ("expected " ++ natStr minA ++ " argument"
          ++ (if minA = 1 then "" else "s") ++ " for " ++ op ++ ", got " ++ natStr n)
      else .ok ()
    else if n < minA || n > mx then
      .error ("expected " ++ natStr minA ++ " to " ++ natStr mx ++ " arguments for "
        ++ op ++ ", got " ++ natStr n)
    else .ok ()
  | none =>
    if n < minA then
      .error ("expected " ++ natStr minA ++ " or more arguments for " ++ op
        ++ ", got " ++ natStr n)
    else .ok ()

/-- `hasOddArgs`. -/
def hasOddArgs (op : String) (n : Nat) : Except String Unit :=
  if n % 2 == 0 then
    .error ("expected an odd number of arguments for " ++ op ++ ", got "
      ++ natStr n ++ " instead")
  else .ok ()

/-- `hasEvenArgs`. -/
def hasEvenArgs (op : String) (n : Nat) : Except String Unit :=
  if n % 2 == 1 then
    .error ("expected an even number of arguments for operation " ++ op ++ ", got "
      ++ natStr n ++ " instead")
  else .ok ()
/-! ## Literal expressions (`parseLiteralExpression`) -/

/-- Modelled from the spec: the external *color parser*
(`fromString` of `ol/color.js`, which is not among the sources) maps CSS
color strings to RGBA quadruples with alpha in `[0,1]`.  Only the named
colors this repository's tests mention are included; every other string
fails, which surfaces as the `failed to parse ... as color` literal
error. -/
def colorFromString (s : String) : Option (List ℚ) :=
  if s = "red" then some [255, 0, 0, 1]
  else if s = "green" then some [0, 128, 0, 1]
  else if s = "blue" then some [0, 0, 255, 1]
  else if s = "fuchsia" then some [255, 0, 255, 1]
  else if s = "yellow" then some [255, 255, 0, 1]
  else if s = "white" then some [255, 255, 255, 1]
  else if s = "black" then some [0, 0, 0, 1]
  else none

/-- Modelled from the spec: the external *size normalizer* (`toSize` of
`ol/size.js`, not among the sources) expands a scalar to a pair. -/
def toSize (q : ℚ) : List ℚ := [q, q]

/-- All-numbers check over array items, returning the numbers (the
element-wise `typeof item !== 'number'` loops). -/
def allNums : List JSVal → Option (List ℚ)
  | [] => some []
  | .num q :: rest => (allNums rest).map fun l => q :: l
  | _ => none

/-- `parseLiteralExpression`: coerce a raw value to the expected type or
fail with the literal-error message.  (The JS `default: unsupported type`
branch cannot arise because `Ty` is the closed type set.) -/
def parseLit (encoded : JSVal) (expectedType : Ty) : Except String Expr :=
  match expectedType with
  | .boolean =>
    match encoded with
    | .bool b => .ok (.lit .boolean (.b b))
    | _ => .ok (.lit .boolean (.b (truthy encoded)))
  | .string =>
    match encoded with
    | .str s => .ok (.lit .string (.s s))
    | _ => .ok (.lit .string (.s (jsToString encoded)))
  | .number =>
    match encoded with
    | .num q => .ok (.lit .number (.n q))
    | _ =>
      match toNumber encoded with
      | none => .error ("expected a number")
      | some q => .ok (.lit .number (.n q))
  | .numberArray =>
    match encoded with
    | .arr items =>
      match allNums items with
      | some qs => .ok (.lit .numberArray (.ns qs))
      | none => .error ("expected an array of numbers")
    | _ => .error ("expected an array of numbers")
  | .color =>
    match encoded with
    | .str s =>
      match colorFromString s with
      | some c => .ok (.lit .color (.ns c))
      | none => .error ("failed to parse \"" ++ s ++ "\" as color")
    | .arr items =>
      match allNums items with
      | none => .error ("expected an array of numbers")
      | some qs =>
        if qs.length = 3 then .ok (.lit .color (.ns (qs ++ [1])))
        else if qs.length = 4 then .ok (.lit .color (.ns qs))
        else
          .error ("expected an array of 3 or 4 values for a color, got "
            ++ natStr items.length)
    | _ => .error ("expected a string or an array of numbers")
  | .size =>
    match encoded with
    | .num q => .ok (.lit .size (.ns (toSize q)))
    | .arr items =>
      if items.length ≠ 2 then
        .error ("expected an array of two values for a size, got "
          ++ natStr items.length)
      else
        match allNums items with
        | some qs => .ok (.lit .size (.ns qs))
        | none => .error ("expected an array of numbers")
    | _ => .error ("expected a number or an array of numbers")
/-! ## The parser (`parse`, `parseCallExpression`, the argument validators)

The mutually recursive group below embeds `parse` together with every
argument validator that recursively parses subexpressions.  The `fuel`
parameter bounds the recursion depth; the wrapper `parse` passes `sizeOf`
of the encoded value, which always exceeds its nesting depth, so the
fuel-exhaustion branch is unreachable from the wrapper. -/

theorem sizeOf_dropLast_le (l : List JSVal) : sizeOf l.dropLast ≤ sizeOf l := by
  induction l with
  | nil => simp
  | cons x rest ih =>
    cases rest with
    | nil => simp [List.dropLast]
    | cons y t =>
      rw [List.dropLast_cons₂]
      simp only [List.cons.sizeOf_spec] at ih ⊢
      omega

theorem sizeOf_lt_of_mem_js {x : JSVal} {l : List JSVal} (h : x ∈ l) :
    sizeOf x < sizeOf l := by
  induction l with
  | nil => cases h
  | cons y t ih =>
    rcases List.mem_cons.mp h with rfl | h'
    · simp; omega
    · have := ih h'
      simp
      omega

/-- The decode of `encoded[1]` in `withInterpolateArgs`: `['linear']` is
base 1; `['exponential', base]` requires a positive number base. -/
def interpolationBase (interpE : JSVal) : PM ℚ :=
  match interpE with
  | .arr (.str ("linear") :: _) => pure 1
  | .arr (.str ("exponential") :: brest) =>
    match brest.head? with
    | some (.num b) =>
      if b ≤ 0 then
        perr ("expected a number base for exponential interpolation, got "
          ++ jsonStr (.num b) ++ " instead")
      else pure b
    | some other =>
      perr ("expected a number base for exponential interpolation, got "
        ++ jsonStr other ++ " instead")
    | none =>
      perr ("expected a number base for exponential interpolation, got undefined instead")
  | _ => perr ("invalid interpolation type: " ++ jsonStr interpE)

mutual

/-- `parse(encoded, expectedType, context)`: arrays headed by a string are
call expressions, the empty array fails, everything else is a literal. -/
def parseF : Nat → JSVal → Ty → PM Expr
  | 0, _, _ => perr ("recursion depth exceeded")
  | _ + 1, .arr [], _ => perr ("empty expression")
  | n + 1, .arr (.str op :: rest), t => do
    let args ← dispatchOp n op rest t
    pure (Expr.call t op args)
  | _ + 1, v, t => liftE (parseLit v t)
termination_by n _ _ => (n, 0)

/-- `parseCallExpression` together with each operator's validator chain
from the `parsers` table: unknown operators fail, otherwise the validators
run in order and the parsed arguments form the call node. -/
def dispatchOp : Nat → String → List JSVal → Ty → PM (List Expr)
  | n, op, args, t =>
    match op with
    | "get" => do
      _ ← liftE (checkArgsCount 1 none op args.length)
      withGetArgs args t
    | "has" => do
      _ ← liftE (checkArgsCount 1 none op args.length)
      withGetArgs args t
    | "var" => do
      _ ← liftE (checkArgsCount 1 none op args.length)
      withVarArgs args t
    | "id" => do
      usesFeatureId
      liftE (withNoArgs op args)
    | "concat" => do
      _ ← liftE (checkArgsCount 2 none op args.length)
      argsOfType n .string args
    | "geometry-type" => do
      usesGeometryType
      liftE (withNoArgs op args)
    | "line-metric" => liftE (withNoArgs op args)
    | "resolution" => liftE (withNoArgs op args)
    | "zoom" => liftE (withNoArgs op args)
    | "time" => liftE (withNoArgs op args)
    | "any" => do
      _ ← liftE (checkArgsCount 2 none op args.length)
      argsOfType n .boolean args
    | "all" => do
      _ ← liftE (checkArgsCount 2 none op args.length)
      argsOfType n .boolean args
    | "!" => do
      _ ← liftE (checkArgsCount 1 (some 1) op args.length)
      argsOfType n .boolean args
    | "==" => do
      _ ← liftE (checkArgsCount 2 (some 2) op args.length)
      argsOfType n .number args
    | "!=" => do
      _ ← liftE (checkArgsCount 2 (some 2) op args.length)
      argsOfType n .number args
    | ">" => do
      _ ← liftE (checkArgsCount 2 (some 2) op args.length)
      argsOfType n .number args
    | ">=" => do
      _ ← liftE (checkArgsCount 2 (some 2) op args.length)
      argsOfType n .number args
    | "<" => do
      _ ← liftE (checkArgsCount 2 (some 2) op args.length)
      argsOfType n .number args
    | "<=" => do
      _ ← liftE (checkArgsCount 2 (some 2) op args.length)
      argsOfType n .number args
    | "*" => do
      _ ← liftE (checkArgsCount 2 none op args.length)
      argsOfType n .number args
    | "+" => do
      _ ← liftE (checkArgsCount 2 none op args.length)
      argsOfType n .number args
    | "/" => do
      _ ← liftE (checkArgsCount 2 (some 2) op args.length)
      argsOfType n .number args
    | "-" => do
      _ ← liftE (checkArgsCount 2 (some 2) op args.length)
      argsOfType n .number args
    | "%" => do
      _ ← liftE (checkArgsCount 2 (some 2) op args.length)
      argsOfType n .number args
    | "^" => do
      _ ← liftE (checkArgsCount 2 (some 2) op args.length)
      argsOfType n .number args
    | "clamp" => do
      _ ← liftE (checkArgsCount 3 (some 3) op args.length)
      argsOfType n .number args
    | "between" => do
      _ ← liftE (checkArgsCount 3 (some 3) op args.length)
      argsOfType n .number args
    | "abs" => do
      _ ← liftE (checkArgsCount 1 (some 1) op args.length)
      argsOfType n .number args
    | "floor" => do
      _ ← liftE (checkArgsCount 1 (some 1) op args.length)
      argsOfType n .number args
    | "ceil" => do
      _ ← liftE (checkArgsCount 1 (some 1) op args.length)
      argsOfType n .number args
    | "round" => do
      _ ← liftE (checkArgsCount 1 (some 1) op args.length)
      argsOfType n .number args
    | "sin" => do
      _ ← liftE (checkArgsCount 1 (some 1) op args.length)
      argsOfType n .number args
    | "cos" => do
      _ ← liftE (checkArgsCount 1 (some 1) op args.length)
      argsOfType n .number args
    | "atan" => do
      _ ← liftE (checkArgsCount 1 (some 2) op args.length)
      argsOfType n .number args
    | "sqrt" => do
      _ ← liftE (checkArgsCount 1 (some 1) op args.length)
      argsOfType n .number args
    | "match-string" => do
      _ ← liftE (checkArgsCount 4 none op args.length)
      _ ← liftE (hasEvenArgs op args.length)
      matchValidator n .string args t
    | "match-number" => do
      _ ← liftE (checkArgsCount 4 none op args.length)
      _ ← liftE (hasEvenArgs op args.length)
      matchValidator n .number args t
    | "interpolate" => do
      _ ← liftE (checkArgsCount 6 none op args.length)
      _ ← liftE (hasEvenArgs op args.length)
      interpolateValidator n args t
    | "case" => do
      _ ← liftE (checkArgsCount 3 none op args.length)
      _ ← liftE (hasOddArgs op args.length)
      caseValidator n args t
    | "in" => do
      _ ← liftE (checkArgsCount 2 (some 2) op args.length)
      inValidator n args
    | "array" => do
      _ ← liftE (checkArgsCount 1 none op args.length)
      argsOfType n .number args
    | "color" => do
      _ ← liftE (checkArgsCount 1 (some 4) op args.length)
      argsOfType n .number args
    | "band" => do
      _ ← liftE (checkArgsCount 1 (some 3) op args.length)
      argsOfType n .number args
    | "palette" => do
      _ ← liftE (checkArgsCount 2 (some 2) op args.length)
      paletteValidator n args
    | _ => perr ("unknown operator: " ++ op)
termination_by n _ args _ => (n, 3 + sizeOf args)

/-- `withArgsOfType(argType)`: every argument parses at the given type. -/
def argsOfType : Nat → Ty → List JSVal → PM (List Expr)
  | _, _, [] => pure []
  | n, t, x :: rest => do
    let e ← parseF n x t
    let es ← argsOfType n t rest
    pure (e :: es)
termination_by n _ l => (n, 1 + sizeOf l)

/-- `withMatchArgs(inputType)`: input first, then the fallback, then the
match/output pairs; the pairs reuse the parsed input and fallback types. -/
def matchValidator : Nat → Ty → List JSVal → Ty → PM (List Expr)
  | n, inputT, a0 :: rest, t => do
    let input ← parseF n a0 inputT
    match rest.getLast? with
    | some fbe => do
      let fallback ← parseF n fbe t
      have hdl : sizeOf rest.dropLast ≤ sizeOf rest := sizeOf_dropLast_le rest
      let mid ← matchPairs n 1 input.type fallback.type rest.dropLast
      pure (input :: (mid ++ [fallback]))
    | none => perr ("match arguments unreachable")
  | _, _, [], _ => perr ("match arguments unreachable")
termination_by n _ l _ => (n, 2 + sizeOf l)

/-- The match/output pair loop of `withMatchArgs`; the index is the JS loop
counter plus one (the first failure message says `argument 1`). -/
def matchPairs : Nat → Nat → Ty → Ty → List JSVal → PM (List Expr)
  | _, _, _, _, [] => pure []
  | n, i, tIn, tOut, m0 :: o0 :: rest => do
    let m ← mapErr
      (fun e => "failed to parse argument " ++ natStr i
        ++ " of match expression: " ++ e)
      (parseF n m0 tIn)
    let o ← mapErr
      (fun e => "failed to parse argument " ++ natStr (i + 1)
        ++ " of match expression: " ++ e)
      (parseF n o0 tOut)
    let es ← matchPairs n (i + 2) tIn tOut rest
    pure (m :: o :: es)
  | _, _, _, _, [_] => perr ("match pairs unreachable")
termination_by n _ _ _ l => (n, 1 + sizeOf l)

/-- `withCaseArgs`: the fallback parses first, then condition/output pairs
left to right, each reported with its JS argument index on failure. -/
def caseValidator : Nat → List JSVal → Ty → PM (List Expr)
  | n, args, t =>
    match args.getLast? with
    | some fbe => do
      let fallback ← parseF n fbe t
      have hdl : sizeOf args.dropLast ≤ sizeOf args := sizeOf_dropLast_le args
      let mid ← casePairs n 0 fallback.type args.dropLast
      pure (mid ++ [fallback])
    | none => perr ("case arguments unreachable")
termination_by n l _ => (n, 2 + sizeOf l)

/-- The condition/output pair loop of `withCaseArgs`. -/
def casePairs : Nat → Nat → Ty → List JSVal → PM (List Expr)
  | _, _, _, [] => pure []
  | n, i, tOut, c0 :: o0 :: rest => do
    let c ← mapErr
      (fun e => "failed to parse argument " ++ natStr i
        ++ " of case expression: " ++ e)
      (parseF n c0 .boolean)
    let o ← mapErr
      (fun e => "failed to parse argument " ++ natStr (i + 1)
        ++ " of case expression: " ++ e)
      (parseF n o0 tOut)
    let es ← casePairs n (i + 2) tOut rest
    pure (c :: o :: es)
  | _, _, _, [_] => perr ("case pairs unreachable")
termination_by n _ _ l => (n, 1 + sizeOf l)

/-- `withInterpolateArgs`: decode the interpolation base, parse the input,
then the stop/output pairs. -/
def interpolateValidator : Nat → List JSVal → Ty → PM (List Expr)
  | n, interpE :: inputE :: stopsE, t => do
    let base ← interpolationBase interpE
    let input ← mapErr
      (fun e => "failed to parse argument 1 in interpolate expression: " ++ e)
      (parseF n inputE .number)
    let stops ← interpStops n 2 t stopsE
    pure (Expr.lit .number (.n base) :: input :: stops)
  | _, _, _ => perr ("interpolate arguments unreachable")
termination_by n l _ => (n, 2 + sizeOf l)

/-- The stop/output pair loop of `withInterpolateArgs`. -/
def interpStops : Nat → Nat → Ty → List JSVal → PM (List Expr)
  | _, _, _, [] => pure []
  | n, i, t, s0 :: o0 :: rest => do
    let s ← mapErr
      (fun e => "failed to parse argument " ++ natStr i
        ++ " for interpolate expression: " ++ e)
      (parseF n s0 .number)
    let o ← mapErr
      (fun e => "failed to parse argument " ++ natStr (i + 1)
        ++ " for interpolate expression: " ++ e)
      (parseF n o0 t)
    let es ← interpStops n (i + 2) t rest
    pure (s :: o :: es)
  | _, _, _, [_] => perr ("interpolate stops unreachable")
termination_by n _ _ l => (n, 1 + sizeOf l)

/-- `withInArgs`: validate the haystack shape, parse the haystack items,
then the needle; results are needle first. -/
def inValidator : Nat → List JSVal → PM (List Expr)
  | n, [needleE, .arr hay] =>
    match hay with
    | .str s0 :: hrest =>
      if s0 ≠ "literal" then
        perr ("for the \"in\" operator, a string array should be wrapped in a \"literal\" operator to disambiguate from expressions")
      else
        match hrest with
        | .arr inner :: _ => do
          let items ← hayItems n 0 .string inner
          let needle ← parseF n needleE .string
          pure (needle :: items)
        | _ =>
          perr ("failed to parse \"in\" expression: the literal operator must be followed by an array")
    | other => do
      let items ← hayItems n 0 .number other
      let needle ← parseF n needleE .number
      pure (needle :: items)
  | _, [_, _] => perr ("the second argument for the \"in\" operator must be an array")
  | _, _ => perr ("in arguments unreachable")
termination_by n l => (n, 2 + sizeOf l)

/-- The haystack item loop of `withInArgs`. -/
def hayItems : Nat → Nat → Ty → List JSVal → PM (List Expr)
  | _, _, _, [] => pure []
  | n, i, t, x :: rest => do
    let e ← mapErr
      (fun e => "failed to parse haystack item " ++ natStr i
        ++ " for \"in\" expression: " ++ e)
      (parseF n x t)
    let es ← hayItems n (i + 1) t rest
    pure (e :: es)
termination_by n _ _ l => (n, 1 + sizeOf l)

/-- `withPaletteArgs`: the index parses first, then each palette color,
which must come out as a literal. -/
def paletteValidator : Nat → List JSVal → PM (List Expr)
  | n, [indexE, colorsE] => do
    let index ← mapErr
      (fun e => "failed to parse first argument in palette expression: " ++ e)
      (parseF n indexE .number)
    match colorsE with
    | .arr colors => do
      let parsed ← paletteColors n 0 colors
      pure (index :: parsed)
    | _ => perr ("the second argument of palette must be an array")
  | _, _ => perr ("palette arguments unreachable")
termination_by n l => (n, 2 + sizeOf l)

/-- The color loop of `withPaletteArgs`. -/
def paletteColors : Nat → Nat → List JSVal → PM (List Expr)
  | _, _, [] => pure []
  | n, i, c0 :: rest => do
    let c ← mapErr
      (fun e => "failed to parse color at index " ++ natStr i
        ++ " in palette expression: " ++ e)
      (parseF n c0 .color)
    match c with
    | .lit _ _ => do
      let es ← paletteColors n (i + 1) rest
      pure (c :: es)
    | _ => perr ("the palette color at index " ++ natStr i ++ " must be a literal value")
termination_by n _ l => (n, 1 + sizeOf l)

end

mutual

/-- Nesting depth of a JS value (objects count as leaves; the parser never
recurses into an object). -/
def JSVal.depth : JSVal → Nat
  | .arr items => JSVal.depthList items + 1
  | _ => 1

/-- Greatest depth of a list of JS values. -/
def JSVal.depthList : List JSVal → Nat
  | [] => 0
  | x :: rest => max (JSVal.depth x) (JSVal.depthList rest)

end

/-- The public `parse`: the depth of the encoded value is always enough
fuel, since each consumed fuel unit descends at least one array level. -/
def parse (encoded : JSVal) (expectedType : Ty) : PM Expr :=
  parseF (JSVal.depth encoded) encoded expectedType
/-! ## Accessor value processing (`processAccessorValues`) -/

/-- Canonical decimal index: the strings under which JS arrays and strings
expose own elements ("0", "1", …, without leading zeros). -/
def canonNat (l : List Char) : Option Nat :=
  if l ≠ [] ∧ l.all Char.isDigit ∧ (l = ['0'] ∨ l.head? ≠ some '0') then
    some (charsToNat l)
  else none

/-- `Object.hasOwn(v, seg)`: objects own their fields; arrays own their
index properties and `length`; strings own their character indexes and
`length`; primitives own nothing. -/
def hasOwnSeg (v : JSVal) (seg : Seg) : Bool :=
  match v with
  | .obj fields => (lookupField (String.mk (segToChars seg)) fields).isSome
  | .arr items =>
    segToChars seg = ("length").data ||
      (match canonNat (segToChars seg) with
       | some i => i < items.length
       | none => false)
  | .str s =>
    segToChars seg = ("length").data ||
      (match canonNat (segToChars seg) with
       | some i => i < s.length
       | none => false)
  | _ => false

/-- `v[seg]` under the guarantee `hasOwnSeg v seg` (null as junk value
elsewhere). -/
def indexSeg (v : JSVal) (seg : Seg) : JSVal :=
  match v with
  | .obj fields => (lookupField (String.mk (segToChars seg)) fields).getD .null
  | .arr items =>
    if segToChars seg = ("length").data then .num items.length
    else
      match canonNat (segToChars seg) with
      | some i => items.getD i .null
      | none => .null
  | .str s =>
    if segToChars seg = ("length").data then .num s.length
    else
      match canonNat (segToChars seg) with
      | some i => .str (String.mk [s.data.getD i ' '])
      | none => .null
  | _ => .null

/-- The inner walk of `processAccessorValues`: each segment requires the
current value to be truthy and to own the key; the final lookup is not
rechecked.  An empty path never enters the loop, so it stays absent. -/
def walkGo (v : JSVal) (k : Seg) (rest : List Seg) : Option JSVal :=
  if truthy v && hasOwnSeg v k then
    match rest with
    | [] => some (indexSeg v k)
    | k' :: r' => walkGo (indexSeg v k) k' r'
  else none

/-- Resolve a path against a raw record, `none` meaning "absent". -/
def walkPath (vals : JSVal) : List Seg → Option JSVal
  | [] => none
  | k :: rest => walkGo vals k rest

/-- A processed accessor value (`PostAccessorInfo`). -/
structure PostAccessorInfo where
  value : LV
  type : Ty
  slug : String
deriving DecidableEq, Repr

/-- Lookup in the processed-values association list. -/
def lookupPost (k : String) : List (String × PostAccessorInfo) → Option PostAccessorInfo
  | [] => none
  | (k', i) :: rest => if k' = k then some i else lookupPost k rest

/-- `processAccessorValues(values, infoLookup)`: walk each accessor's path;
present values and set defaults are coerced by `parseLiteralExpression`
(whose failure aborts the whole call), absent accessors without a default
are omitted. -/
def processAccessorValues (values : JSVal) :
    List (String × AccessorInfo) → Except String (List (String × PostAccessorInfo))
  | [] => .ok []
  | (key, info) :: rest =>
    match walkPath values info.path with
    | some v =>
      match parseLit v info.type with
      | .error e => .error e
      | .ok (.lit t lv) =>
        (processAccessorValues values rest).map
          fun out => (key, ⟨lv, t, info.slug⟩) :: out
      | .ok _ => .error ("non-literal coercion unreachable")
    | none =>
      match info.dflt with
      | some d =>
        match parseLit d info.type with
        | .error e => .error e
        | .ok (.lit t lv) =>
          (processAccessorValues values rest).map
            fun out => (key, ⟨lv, t, info.slug⟩) :: out
        | .ok _ => .error ("non-literal coercion unreachable")
      | none => processAccessorValues values rest

/-! ## The interpolation evaluator

`src/ol/expr/cpu.js` is not among the sources; the evaluator below is
modelled from the spec, §4.5.1. -/

/-- Modelled from the spec: the bracket scan of §4.5.1 — find `i` with
`sᵢ ≤ x < sᵢ₊₁`, return `oᵢ₊₁` when the two stops coincide, otherwise
blend with the linear or exponential weight.  `blend t a b` stands for
`(1−t)·a + t·b` on the output type; `expW y delta` stands for the
exponential weight `(bʸ−1)/(b^Δ−1)`, supplied as a parameter because real
exponentiation leaves the rationals. -/
def interpScan (blend : ℚ → V → V → V) (expW : ℚ → ℚ → ℚ) (base x : ℚ) :
    List (ℚ × V) → Option V
  | (si, oi) :: (sj, oj) :: rest =>
    if x < sj then
      let delta := sj - si
      if delta = 0 then some oj
      else
        let t := if base = 1 then (x - si) / delta else expW (x - si) delta
        some (blend t oi oj)
    else interpScan blend expW base x ((sj, oj) :: rest)
  | _ => none

/-- Modelled from the spec: evaluation of a compiled `interpolate`
expression at input `x` (§4.5.1) — clamp below the first stop and above the
last stop, otherwise interpolate inside the bracketing pair. -/
def interpolateEval (blend : ℚ → V → V → V) (expW : ℚ → ℚ → ℚ) (base x : ℚ)
    (stops : List (ℚ × V)) : Option V :=
  match stops with
  | [] => none
  | (s1, o1) :: _ =>
    if x ≤ s1 then some o1
    else
      match stops.getLast? with
      | some (slast, olast) =>
        if x ≥ slast then some olast
        else interpScan blend expW base x stops
      | none => none
/-! ## Types of parse results (claim C1) -/

theorem parseLit_ok_type (v : JSVal) (t : Ty) (e : Expr)
    (h : parseLit v t = .ok e) : e.type = t := by
  cases t <;> cases v <;>
    simp only [parseLit] at h <;>
    (repeat' split at h) <;>
    (try simp at h) <;>
    (try subst h) <;>
    rfl

theorem parseF_ok_type (n : Nat) (v : JSVal) (t : Ty) (s : ParsingContext)
    (e : Expr) (s' : ParsingContext) (h : parseF n v t s = (.ok e, s')) :
    e.type = t := by
  match n, v with
  | 0, v =>
    simp [parseF] at h
  | n + 1, .arr [] =>
    simp [parseF] at h
  | n + 1, .arr (.str op :: rest) =>
    rw [parseF] at h
    simp only [PM.bind_apply] at h
    rcases hd : dispatchOp n op rest t s with ⟨r, s1⟩
    rw [hd] at h
    cases r with
    | ok args =>
      simp only [PM.pure_apply, Prod.mk.injEq, Except.ok.injEq] at h
      rw [← h.1]
      rfl
    | error msg => simp at h
  | n + 1, .null =>
    simp only [parseF, liftE_apply, Prod.mk.injEq] at h
    exact parseLit_ok_type _ _ _ h.1
  | n + 1, .bool b =>
    simp only [parseF, liftE_apply, Prod.mk.injEq] at h
    exact parseLit_ok_type _ _ _ h.1
  | n + 1, .num q =>
    simp only [parseF, liftE_apply, Prod.mk.injEq] at h
    exact parseLit_ok_type _ _ _ h.1
  | n + 1, .str st =>
    simp only [parseF, liftE_apply, Prod.mk.injEq] at h
    exact parseLit_ok_type _ _ _ h.1
  | n + 1, .arr (.null :: rest) =>
    simp only [parseF, liftE_apply, Prod.mk.injEq] at h
    exact parseLit_ok_type _ _ _ h.1
  | n + 1, .arr (.bool b :: rest) =>
    simp only [parseF, liftE_apply, Prod.mk.injEq] at h
    exact parseLit_ok_type _ _ _ h.1
  | n + 1, .arr (.num q :: rest) =>
    simp only [parseF, liftE_apply, Prod.mk.injEq] at h
    exact parseLit_ok_type _ _ _ h.1
  | n + 1, .arr (.arr l :: rest) =>
    simp only [parseF, liftE_apply, Prod.mk.injEq] at h
    exact parseLit_ok_type _ _ _ h.1
  | n + 1, .arr (.obj f :: rest) =>
    simp only [parseF, liftE_apply, Prod.mk.injEq] at h
    exact parseLit_ok_type _ _ _ h.1
  | n + 1, .obj f =>
    simp only [parseF, liftE_apply, Prod.mk.injEq] at h
    exact parseLit_ok_type _ _ _ h.1
/-- C1: for every encoded expression, declared type from the closed type
set, and parsing context, a successful `parse` returns an expression node
whose `type` field equals the declared type (for literal and call results
alike). -/
theorem claim_C1_parse_type (v : JSVal) (t : Ty) (s s' : ParsingContext) (e : Expr)
    (h : parse v t s = (.ok e, s')) : e.type = t :=
  parseF_ok_type _ v t s e s' h

theorem claim_C1_witness :
    parse (JSVal.arr [JSVal.str ("get"), JSVal.str ("foo")]) Ty.string
        newParsingContext =
      ((Except.ok (Expr.call .string ("get")
          [Expr.lit .string (.s ("\x7b\"path\":[\"foo\"],\"type\":\"string\"\x7d"))])),
        ⟨[], [(("\x7b\"path\":[\"foo\"],\"type\":\"string\"\x7d"),
          ⟨[Seg.str ("foo")], Ty.string, ("foo_0"), none⟩)], false, false⟩) ∧
    (Expr.call .string ("get")
        [Expr.lit .string (.s ("\x7b\"path\":[\"foo\"],\"type\":\"string\"\x7d"))]).type =
      Ty.string := by
  have hp : parse (JSVal.arr [JSVal.str ("get"), JSVal.str ("foo")]) Ty.string
      newParsingContext =
      ((Except.ok (Expr.call .string ("get")
          [Expr.lit .string (.s ("\x7b\"path\":[\"foo\"],\"type\":\"string\"\x7d"))])),
        ⟨[], [(("\x7b\"path\":[\"foo\"],\"type\":\"string\"\x7d"),
          ⟨[Seg.str ("foo")], Ty.string, ("foo_0"), none⟩)], false, false⟩) := by
    simp [parse, parseF, JSVal.depth, JSVal.depthList, dispatchOp, checkArgsCount,
      withGetArgs, extractAccessor, registerIn, keyForAccessor, jsonStr, accessorConfig,
      jsonChars, jsonItems, jsonFields, quoteChars, escChars, escapeChar, segToJSVal,
      lookupField, lookupKey, slugOf, joinSegs, segToChars, natStr, natChars, digitChar,
      newParsingContext, String.mk, Ty.name, Except.map, List.map]
  exact ⟨hp, claim_C1_parse_type _ _ _ _ _ hp⟩

/-- C3 counterexample: the claim says coercing a boolean to the declared
type number fails with a `LiteralError`; in the code
`parseLiteralExpression` applies `Number(encoded)` to a boolean and
succeeds, returning 1 for `true` and 0 for `false`. -/
theorem claim_C3_counterexample :
    parseLit (JSVal.bool true) Ty.number = .ok (Expr.lit .number (.n 1)) ∧
    parseLit (JSVal.bool false) Ty.number = .ok (Expr.lit .number (.n 0)) := by
  constructor <;> rfl

/-- C3 amended: coercing a boolean raw value to the declared type number
succeeds with `Number(v)` — the literal 1 for `true` and 0 for `false`
(the boolean-to-number cell is not an error). -/
theorem claim_C3_amended (b : Bool) :
    parseLit (JSVal.bool b) Ty.number =
      .ok (Expr.lit .number (.n (if b then 1 else 0))) := by
  cases b <;> rfl

/-- C4: the repository's own test
(`test/node/ol/expr/expression.test.js`, case "invalid expression") expects
`parse(null, NumberType, ctx)` to throw `expression must be an array or a
primitive value`; the code instead coerces `null` with `Number(null)` and
returns the literal 0 — that error message does not occur in
`expression.js` at all. -/
theorem claim_C4_null_parses :
    parse JSVal.null Ty.number newParsingContext =
      (Except.ok (Expr.lit .number (.n 0)), newParsingContext) := by
  simp [parse, parseF, JSVal.depth, parseLit, toNumber]

/-- C5: the repository's own tests parse `['match', …]` expressions
(`expression.test.js`, "match-number operation" cases), but the `parsers`
table registers only `match-number` and `match-string`; a bare `match`
therefore throws `unknown operator: match` while the same arguments under
`match-number` parse fine — `match` is *not* an alias of `match-number` in
this code. -/
theorem claim_C5_match_not_alias :
    parse (JSVal.arr [JSVal.str ("match"), JSVal.num 1, JSVal.num 2,
        JSVal.str ("a"), JSVal.str ("b")]) Ty.string newParsingContext =
      (Except.error ("unknown operator: match"), newParsingContext) ∧
    parse (JSVal.arr [JSVal.str ("match-number"), JSVal.num 1, JSVal.num 2,
        JSVal.str ("a"), JSVal.str ("b")]) Ty.string newParsingContext =
      (Except.ok (Expr.call .string ("match-number")
        [Expr.lit .number (.n 1), Expr.lit .number (.n 2),
         Expr.lit .string (.s ("a")), Expr.lit .string (.s ("b"))]),
       newParsingContext) := by
  constructor
  · simp [parse, parseF, JSVal.depth, JSVal.depthList, dispatchOp]
  · simp [parse, parseF, JSVal.depth, JSVal.depthList, dispatchOp, checkArgsCount,
      hasEvenArgs, matchValidator, matchPairs, mapErr, parseLit, natStr, natChars,
      List.getLast?, List.dropLast, Expr.type]
/-- C9 counterexample: with the coincident stops `(0,1),(0,2)` (a
non-decreasing sequence) and input `x = 0 ≥ sₙ`, the §4.5.1 evaluation
returns `o₁ = 1`, not `oₙ = 2`: the lower clamp is checked first, so the
claim's "any input `x ≥ sₙ` returns exactly `oₙ`" is false as stated. -/
theorem claim_C9_counterexample :
    interpolateEval (fun t a b => (1 - t) * a + t * b) (fun y d => y / d) 1 0
        [((0 : ℚ), (1 : ℚ)), (0, 2)] = some 1 ∧
    List.Chain' (fun p q : ℚ × ℚ => p.1 ≤ q.1) [((0 : ℚ), (1 : ℚ)), (0, 2)] ∧
    [((0 : ℚ), (1 : ℚ)), (0, 2)].getLast? = some (0, 2) ∧
    (0 : ℚ) ≥ 0 ∧ some (1 : ℚ) ≠ some (2 : ℚ) := by
  refine ⟨rfl, ?_, rfl, le_refl 0, by simp⟩
  simp

/-- C9 amended: for a compiled interpolate expression with non-decreasing
stops, evaluation clamps at both ends: any `x ≤ s₁` returns exactly `o₁`,
and any `x ≥ sₙ` returns exactly `oₙ` provided `s₁ < sₙ`; when every stop
coincides with `x`, the lower clamp wins and `o₁` is returned. -/
theorem claim_C9_amended {V : Type} (blend : ℚ → V → V → V) (expW : ℚ → ℚ → ℚ)
    (base x s1 : ℚ) (o1 : V) (rest : List (ℚ × V))
    (_hsort : List.Chain' (fun p q : ℚ × V => p.1 ≤ q.1) ((s1, o1) :: rest)) :
    (x ≤ s1 → interpolateEval blend expW base x ((s1, o1) :: rest) = some o1) ∧
    (∀ sn olast, ((s1, o1) :: rest).getLast? = some (sn, olast) → s1 < sn → sn ≤ x →
      interpolateEval blend expW base x ((s1, o1) :: rest) = some olast) := by
  constructor
  · intro hx
    simp [interpolateEval, hx]
  · intro sn olast hlast hlt hge
    have hx1 : ¬x ≤ s1 := by linarith
    simp [interpolateEval, hx1, hlast, ge_iff_le, hge]

theorem claim_C9_witness :
    interpolateEval (fun t a b => (1 - t) * a + t * b) (fun y d => y / d) 1 (-1)
        [((0 : ℚ), (0 : ℚ)), (1, 100)] = some 0 ∧
    interpolateEval (fun t a b => (1 - t) * a + t * b) (fun y d => y / d) 1 2
        [((0 : ℚ), (0 : ℚ)), (1, 100)] = some 100 := by
  have h1 := claim_C9_amended (V := ℚ) (fun t a b => (1 - t) * a + t * b)
    (fun y d => y / d) 1 (-1) 0 0 [(1, 100)] (by simp)
  have h2 := claim_C9_amended (V := ℚ) (fun t a b => (1 - t) * a + t * b)
    (fun y d => y / d) 1 2 0 0 [(1, 100)] (by simp)
  refine ⟨h1.1 (by norm_num), h2.2 1 100 rfl (by norm_num) (by norm_num)⟩
/-- C7: for every needle and every haystack array whose first element is a
string different from `literal`, and for every declared type and context,
parsing `['in', needle, haystack]` fails with exactly the
literal-disambiguation message (and the context is untouched). -/
theorem claim_C7_in_literal (needle : JSVal) (s0 : String) (hrest : List JSVal)
    (t : Ty) (s : ParsingContext) (hs0 : s0 ≠ "literal") :
    parse (JSVal.arr [JSVal.str ("in"), needle, JSVal.arr (JSVal.str s0 :: hrest)]) t s =
      (Except.error ("for the \"in\" operator, a string array should be wrapped in a \"literal\" operator to disambiguate from expressions"),
       s) := by
  simp only [parse, JSVal.depth]
  rw [parseF]
  simp only [dispatchOp]
  rcases hrest with _ | ⟨x, tail⟩
  · simp [checkArgsCount, inValidator, hs0, natStr, natChars, digitChar]
  · cases x <;> simp [checkArgsCount, inValidator, hs0, natStr, natChars, digitChar]

theorem claim_C7_witness :
    parse (JSVal.arr [JSVal.str ("in"), JSVal.str ("x"),
        JSVal.arr [JSVal.str ("abcd"), JSVal.str ("efgh")]]) Ty.boolean
        newParsingContext =
      (Except.error ("for the \"in\" operator, a string array should be wrapped in a \"literal\" operator to disambiguate from expressions"),
       newParsingContext) :=
  claim_C7_in_literal (JSVal.str ("x")) ("abcd") [JSVal.str ("efgh")] Ty.boolean
    newParsingContext (by decide)
/-! ## Claim C8: the accessor processor -/

theorem lookupPost_none_of_not_mem (k : String)
    (out : List (String × PostAccessorInfo)) (h : k ∉ out.map Prod.fst) :
    lookupPost k out = none := by
  induction out with
  | nil => rfl
  | cons p rest ih =>
    simp only [List.map_cons, List.mem_cons] at h
    push_neg at h
    rcases p with ⟨k', i⟩
    simp only [lookupPost]
    rw [if_neg (fun hh => h.1 hh.symm)]
    exact ih h.2

theorem process_map_fst_subset (vals : JSVal) (L : List (String × AccessorInfo))
    (out : List (String × PostAccessorInfo))
    (h : processAccessorValues vals L = .ok out) :
    out.map Prod.fst ⊆ L.map Prod.fst := by
  induction L generalizing out with
  | nil =>
    simp only [processAccessorValues, Except.ok.injEq] at h
    subst h
    simp
  | cons p rest ih =>
    rcases p with ⟨key0, info0⟩
    simp only [processAccessorValues] at h
    split at h
    · -- walk succeeded
      split at h
      · cases h
      · rcases hrest : processAccessorValues vals rest with e' | out' <;>
          rw [hrest] at h
        · cases h
        · simp only [Except.map, Except.ok.injEq] at h
          subst h
          intro x hx
          simp only [List.map_cons, List.mem_cons] at hx ⊢
          rcases hx with hx | hx
          · exact Or.inl hx
          · exact Or.inr (ih out' hrest hx)
      · cases h
    · -- walk absent
      split at h
      · -- default set
        split at h
        · cases h
        · rcases hrest : processAccessorValues vals rest with e' | out' <;>
            rw [hrest] at h
          · cases h
          · simp only [Except.map, Except.ok.injEq] at h
            subst h
            intro x hx
            simp only [List.map_cons, List.mem_cons] at hx ⊢
            rcases hx with hx | hx
            · exact Or.inl hx
            · exact Or.inr (ih out' hrest hx)
        · cases h
      · -- no default
        intro x hx
        exact List.mem_cons_of_mem _ (ih out h hx)

/-- C8: on success, `processAccessorValues` maps each registered accessor
key as follows — a successful walk yields an entry with the walked value
coerced to the accessor's type, a failed walk with a set default yields an
entry with the coerced default, and a failed walk without a default yields
no entry. -/
theorem claim_C8_process (vals : JSVal) (L : List (String × AccessorInfo))
    (out : List (String × PostAccessorInfo))
    (hnd : (L.map Prod.fst).Nodup)
    (h : processAccessorValues vals L = .ok out) :
    ∀ k info, lookupKey k L = some info →
      (match walkPath vals info.path with
       | some v => ∃ t lv, parseLit v info.type = .ok (.lit t lv) ∧
           lookupPost k out = some ⟨lv, t, info.slug⟩
       | none =>
         match info.dflt with
         | some d => ∃ t lv, parseLit d info.type = .ok (.lit t lv) ∧
             lookupPost k out = some ⟨lv, t, info.slug⟩
         | none => lookupPost k out = none) := by
  induction L generalizing out with
  | nil => intro k info hk; cases hk
  | cons p rest ih =>
    rcases p with ⟨key0, info0⟩
    simp only [List.map_cons, List.nodup_cons] at hnd
    intro k info hk
    by_cases hkey : key0 = k
    · subst hkey
      simp [lookupKey] at hk
      subst hk
      simp only [processAccessorValues] at h
      split at h
      · -- walk = some v
        rename_i v hwalk
        split at h
        · cases h
        · rename_i e t lv hp
          rcases hrest : processAccessorValues vals rest with e' | out' <;>
            rw [hrest] at h
          · cases h
          · simp only [Except.map, Except.ok.injEq] at h
            subst h
            exact ⟨t, lv, hp, by simp [lookupPost]⟩
        · cases h
      · -- walk = none
        rename_i hwalk
        split at h
        · rename_i d hd
          split at h
          · cases h
          · rename_i e t lv hp
            rcases hrest : processAccessorValues vals rest with e' | out' <;>
              rw [hrest] at h
            · cases h
            · simp only [Except.map, Except.ok.injEq] at h
              subst h
              exact ⟨t, lv, hp, by simp [lookupPost]⟩
          · cases h
        · rename_i hd
          have hsub := process_map_fst_subset vals rest out h
          exact lookupPost_none_of_not_mem _ _ (fun hx => hnd.1 (hsub hx))
    · simp only [lookupKey, if_neg hkey] at hk
      simp only [processAccessorValues] at h
      split at h
      · split at h
        · cases h
        · rcases hrest : processAccessorValues vals rest with e' | out' <;>
            rw [hrest] at h
          · cases h
          · simp only [Except.map, Except.ok.injEq] at h
            subst h
            have base := ih out' hnd.2 hrest k info hk
            simpa [lookupPost, if_neg hkey] using base
        · cases h
      · split at h
        · split at h
          · cases h
          · rcases hrest : processAccessorValues vals rest with e' | out' <;>
              rw [hrest] at h
            · cases h
            · simp only [Except.map, Except.ok.injEq] at h
              subst h
              have base := ih out' hnd.2 hrest k info hk
              simpa [lookupPost, if_neg hkey] using base
          · cases h
        · exact ih out hnd.2 h k info hk
theorem claim_C8_witness :
    lookupPost ("k1")
        [(("k1"), (⟨LV.n 42, Ty.number, ("property_0")⟩ : PostAccessorInfo))] =
      some ⟨LV.n 42, Ty.number, ("property_0")⟩ := by
  have h := claim_C8_process (JSVal.obj [(("property"), JSVal.num 42)])
    [(("k1"), (⟨[Seg.str ("property")], Ty.number, ("property_0"), none⟩ : AccessorInfo))]
    [(("k1"), (⟨LV.n 42, Ty.number, ("property_0")⟩ : PostAccessorInfo))]
    (by simp) (by rfl) ("k1")
    ⟨[Seg.str ("property")], Ty.number, ("property_0"), none⟩ (by rfl)
  obtain ⟨t, lv, hp, hl⟩ := h
  have heq : (Except.ok (Expr.lit t lv) : Except String Expr) =
      .ok (.lit .number (.n 42)) := hp.symm.trans (by rfl)
  injection heq with heq2
  injection heq2 with ht hv
  subst ht
  subst hv
  exact hl
/-! ## Claim C2: injectivity of the accessor key

`keyForAccessor` serializes `(path, type, default)` with `JSON.stringify`;
the claim needs that two registrations collide exactly when the tuples
coincide.  The lemmas below establish unique decodability of the
serialization, component by component. -/

/-- The replacement character of a JSON short escape, when there is one. -/
def escSecond : Char → Option Char
  | '"' => some '"'
  | '\\' => some '\\'
  | '\n' => some 'n'
  | '\r' => some 'r'
  | '\t' => some 't'
  | '\x08' => some 'b'
  | '\x0c' => some 'f'
  | _ => none

theorem escapeChar_of_escaped {c d : Char} (h : escSecond c = some d) :
    escapeChar c = ['\\', d] := by
  revert h
  unfold escSecond escapeChar
  split <;> simp_all

theorem escapeChar_of_plain {c : Char} (h : escSecond c = none) :
    escapeChar c = [c] ∧ c ≠ '"' ∧ c ≠ '\\' := by
  revert h
  unfold escSecond escapeChar
  split <;> simp_all <;> decide

theorem escSecond_inj {c1 c2 d : Char} (h1 : escSecond c1 = some d)
    (h2 : escSecond c2 = some d) : c1 = c2 := by
  revert h1 h2
  unfold escSecond
  split <;> split <;> simp_all <;> (rintro rfl) <;> decide
theorem quoted_munch : ∀ (s1 s2 r1 r2 : List Char),
    escChars s1 ++ '"' :: r1 = escChars s2 ++ '"' :: r2 → s1 = s2 ∧ r1 = r2 := by
  intro s1
  induction s1 with
  | nil =>
    intro s2 r1 r2 h
    cases s2 with
    | nil =>
      simp only [escChars, List.nil_append, List.cons.injEq] at h
      exact ⟨rfl, h.2⟩
    | cons c2 t2 =>
      rcases hc2 : escSecond c2 with _ | d2
      · obtain ⟨he, hq, _⟩ := escapeChar_of_plain hc2
        simp only [escChars, he, List.nil_append, List.cons_append,
          List.cons.injEq] at h
        exact absurd h.1.symm hq
      · have he := escapeChar_of_escaped hc2
        simp only [escChars, he, List.nil_append, List.cons_append,
          List.cons.injEq] at h
        exact absurd h.1 (by decide)
  | cons c1 t1 ih =>
    intro s2 r1 r2 h
    cases s2 with
    | nil =>
      rcases hc1 : escSecond c1 with _ | d1
      · obtain ⟨he, hq, _⟩ := escapeChar_of_plain hc1
        simp only [escChars, he, List.nil_append, List.cons_append,
          List.cons.injEq] at h
        exact absurd h.1 hq
      · have he := escapeChar_of_escaped hc1
        simp only [escChars, he, List.nil_append, List.cons_append,
          List.cons.injEq] at h
        exact absurd h.1 (by decide)
    | cons c2 t2 =>
      rcases hc1 : escSecond c1 with _ | d1 <;> rcases hc2 : escSecond c2 with _ | d2
      · obtain ⟨he1, _, _⟩ := escapeChar_of_plain hc1
        obtain ⟨he2, _, _⟩ := escapeChar_of_plain hc2
        simp only [escChars, he1, he2, List.cons_append, List.nil_append,
          List.cons.injEq] at h
        obtain ⟨hcc, hrest⟩ := h
        obtain ⟨hts, hrr⟩ := ih t2 r1 r2 hrest
        exact ⟨by rw [hcc, hts], hrr⟩
      · obtain ⟨he1, _, h1ne⟩ := escapeChar_of_plain hc1
        have he2 := escapeChar_of_escaped hc2
        simp only [escChars, he1, he2, List.cons_append, List.nil_append,
          List.cons.injEq] at h
        exact absurd h.1 h1ne
      · have he1 := escapeChar_of_escaped hc1
        obtain ⟨he2, _, h2ne⟩ := escapeChar_of_plain hc2
        simp only [escChars, he1, he2, List.cons_append, List.nil_append,
          List.cons.injEq] at h
        exact absurd h.1.symm h2ne
      · have he1 := escapeChar_of_escaped hc1
        have he2 := escapeChar_of_escaped hc2
        simp only [escChars, he1, he2, List.cons_append, List.nil_append,
          List.cons.injEq] at h
        obtain ⟨_, hd, hrest⟩ := h
        subst hd
        obtain ⟨hts, hrr⟩ := ih t2 r1 r2 hrest
        exact ⟨by rw [escSecond_inj hc1 hc2, hts], hrr⟩
/-- Maximal munch for digit runs: a digit list followed by a non-digit is
recovered uniquely from the concatenation. -/
theorem digits_munch : ∀ (d1 d2 r1 r2 : List Char),
    (∀ c ∈ d1, c.isDigit) → (∀ c ∈ d2, c.isDigit) →
    (∀ c, r1.head? = some c → ¬c.isDigit) → (∀ c, r2.head? = some c → ¬c.isDigit) →
    d1 ++ r1 = d2 ++ r2 → d1 = d2 ∧ r1 = r2 := by
  intro d1
  induction d1 with
  | nil =>
    intro d2 r1 r2 _ hd2 hr1 _ h
    cases d2 with
    | nil => exact ⟨rfl, by simpa using h⟩
    | cons c2 t2 =>
      simp only [List.nil_append, List.cons_append] at h
      subst h
      exact absurd (hd2 c2 (by simp)) (hr1 c2 rfl)
  | cons c1 t1 ih =>
    intro d2 r1 r2 hd1 hd2 hr1 hr2 h
    cases d2 with
    | nil =>
      simp only [List.cons_append, List.nil_append] at h
      subst h
      exact absurd (hd1 c1 (by simp)) (hr2 c1 rfl)
    | cons c2 t2 =>
      simp only [List.cons_append, List.cons.injEq] at h
      obtain ⟨hc, hrest⟩ := h
      obtain ⟨ht, hr⟩ := ih t2 r1 r2 (fun c hc' => hd1 c (by simp [hc']))
        (fun c hc' => hd2 c (by simp [hc'])) hr1 hr2 hrest
      exact ⟨by rw [hc, ht], hr⟩

/-- Maximal munch specialized to printed naturals. -/
theorem natChars_munch {a b : Nat} {r1 r2 : List Char}
    (hr1 : ∀ c, r1.head? = some c → ¬c.isDigit)
    (hr2 : ∀ c, r2.head? = some c → ¬c.isDigit)
    (h : natChars a ++ r1 = natChars b ++ r2) : a = b ∧ r1 = r2 := by
  obtain ⟨hd, hr⟩ := digits_munch (natChars a) (natChars b) r1 r2
    (natChars_digits a) (natChars_digits b) hr1 hr2 h
  exact ⟨natChars_injective hd, hr⟩

theorem zeroPad_digits (k : Nat) (l : List Char) (h : ∀ c ∈ l, c.isDigit) :
    ∀ c ∈ zeroPad k l, c.isDigit := by
  intro c hc
  simp only [zeroPad, List.mem_append, List.mem_replicate] at hc
  rcases hc with hc | hc
  · rw [hc.2]; decide
  · exact h c hc

theorem charsToNat_replicate_zero (j : Nat) (l : List Char) :
    charsToNat (List.replicate j '0' ++ l) = charsToNat l := by
  induction j with
  | zero => simp
  | succ j ih =>
    simp only [List.replicate_succ, List.cons_append, charsToNat, List.foldl_cons]
    have : 10 * 0 + charVal '0' = 0 := by decide
    rw [this]
    exact ih

theorem charsToNat_zeroPad (k : Nat) (l : List Char) :
    charsToNat (zeroPad k l) = charsToNat l :=
  charsToNat_replicate_zero _ l

theorem natChars_length_le : ∀ (k n : Nat), 1 ≤ k → n < 10 ^ k →
    (natChars n).length ≤ k := by
  intro k
  induction k with
  | zero => omega
  | succ k ih =>
    intro n _ hn
    rw [natChars]
    split
    · simp
    · rename_i hbig
      have hk : 1 ≤ k := by
        by_contra hk0
        have : k = 0 := by omega
        subst this
        simp at hn
        omega
      have hdiv : n / 10 < 10 ^ k := by
        rw [pow_succ] at hn
        omega
      have := ih (n / 10) hk hdiv
      simp only [List.length_append, List.length_cons, List.length_nil]
      omega

theorem zeroPad_length (k : Nat) (l : List Char) (h : l.length ≤ k) :
    (zeroPad k l).length = k := by
  simp only [zeroPad, List.length_append, List.length_replicate]
  omega
theorem decExp_dvd {den k : Nat} (h : decExp den = some k) : den ∣ 10 ^ k := by
  have := List.find?_some h
  simp only [beq_iff_eq] at this
  exact Nat.dvd_of_mod_eq_zero this

theorem decExp_pos {den k : Nat} (hden : den ≠ 1) (h : decExp den = some k) :
    1 ≤ k := by
  rcases Nat.eq_zero_or_pos k with rfl | hk
  · have := decExp_dvd h
    simp only [pow_zero, Nat.dvd_one] at this
    exact absurd this hden
  · exact hk

/-- The numerator scaled into an integer for the decimal form. -/
def nvOf (q : ℚ) (k : Nat) : Nat := q.num.toNat * 10 ^ k / q.den

theorem magChars_form (q : ℚ) :
    (q.den = 1 ∧ magChars q = natChars q.num.toNat) ∨
    (∃ k, q.den ≠ 1 ∧ decExp q.den = some k ∧
      magChars q = natChars (nvOf q k / 10 ^ k) ++
        '.' :: zeroPad k (natChars (nvOf q k % 10 ^ k))) ∨
    (q.den ≠ 1 ∧ decExp q.den = none ∧
      magChars q = natChars q.num.toNat ++ '/' :: natChars q.den) := by
  by_cases hden : q.den = 1
  · exact Or.inl ⟨hden, by simp [magChars, hden]⟩
  · rcases hk : decExp q.den with _ | k
    · exact Or.inr (Or.inr ⟨hden, rfl, by simp [magChars, hden, hk]⟩)
    · exact Or.inr (Or.inl ⟨k, hden, rfl, by simp [magChars, hden, hk, nvOf]⟩)

theorem head_of_natChars_append {n : Nat} {r : List Char} {c : Char}
    (h : (natChars n ++ r).head? = some c) : c.isDigit := by
  rcases hl : natChars n with _ | ⟨c0, t0⟩
  · exact absurd hl (natChars_ne_nil n)
  · rw [hl] at h
    simp only [List.cons_append, List.head?_cons, Option.some.injEq] at h
    subst h
    exact natChars_digits n c0 (by rw [hl]; simp)

theorem magChars_head {q : ℚ} {c : Char} (h : (magChars q).head? = some c) :
    c.isDigit := by
  rcases magChars_form q with ⟨_, hf⟩ | ⟨k, _, _, hf⟩ | ⟨_, _, hf⟩ <;> rw [hf] at h
  · exact head_of_natChars_append (r := []) (by simpa using h)
  · exact head_of_natChars_append h
  · exact head_of_natChars_append h

/-- The decimal form determines `q`: the scaled numerator is exactly
`q * 10^k`. -/
theorem nvOf_eq {q : ℚ} (hq : 0 ≤ q) {k : Nat} (hk : decExp q.den = some k) :
    (nvOf q k : ℚ) = q * 10 ^ k := by
  have hdvd : q.den ∣ q.num.toNat * 10 ^ k := Dvd.dvd.mul_left (decExp_dvd hk) _
  have hden0 : (q.den : ℚ) ≠ 0 := Nat.cast_ne_zero.mpr q.den_nz
  have hmul : q.den * nvOf q k = q.num.toNat * 10 ^ k :=
    Nat.mul_div_cancel' hdvd
  have hnum : (q.num.toNat : ℤ) = q.num := Int.toNat_of_nonneg (Rat.num_nonneg.mpr hq)
  have hcast : (q.den : ℚ) * (nvOf q k : ℚ) = (q.num.toNat : ℚ) * 10 ^ k := by
    exact_mod_cast congrArg (fun n : Nat => (n : ℚ)) hmul
  have hq' : (q.num.toNat : ℚ) = q.num := by
    exact_mod_cast congrArg (fun z : ℤ => (z : ℚ)) hnum
  rw [hq'] at hcast
  have hrat : (q.num : ℚ) = q * (q.den : ℚ) := by
    have h0 := Rat.num_div_den q
    rw [div_eq_iff hden0] at h0
    exact h0
  rw [hrat] at hcast
  have hcast2 : (q.den : ℚ) * (nvOf q k : ℚ) = (q.den : ℚ) * (q * 10 ^ k) := by
    rw [hcast]; ring
  exact mul_left_cancel₀ hden0 hcast2
/-- The contexts in which a serialized number appears: the next character
(if any) is a separator, never a digit, `.` or `/`. -/
def sepCtx (r : List Char) : Prop :=
  ∀ c, r.head? = some c → ¬c.isDigit ∧ c ≠ '.' ∧ c ≠ '/'

theorem head_cons_not_digit {ch : Char} (hch : ¬ch.isDigit) (l : List Char) :
    ∀ c, (ch :: l).head? = some c → ¬c.isDigit := by
  intro c hc
  simp only [List.head?_cons, Option.some.injEq] at hc
  subst hc
  exact hch

theorem sepCtx_not_digit {r : List Char} (hr : sepCtx r) :
    ∀ c, r.head? = some c → ¬c.isDigit :=
  fun c hc => (hr c hc).1

theorem rat_eq_of_parts {q1 q2 : ℚ} (h1 : 0 ≤ q1) (h2 : 0 ≤ q2)
    (hn : q1.num.toNat = q2.num.toNat) (hd : q1.den = q2.den) : q1 = q2 := by
  have n1 := Rat.num_nonneg.mpr h1
  have n2 := Rat.num_nonneg.mpr h2
  have : q1.num = q2.num := by omega
  exact Rat.ext this hd

theorem magChars_inj {q1 q2 : ℚ} (h1 : 0 ≤ q1) (h2 : 0 ≤ q2) {r1 r2 : List Char}
    (hr1 : sepCtx r1) (hr2 : sepCtx r2)
    (h : magChars q1 ++ r1 = magChars q2 ++ r2) : q1 = q2 ∧ r1 = r2 := by
  have hdot : ¬('.' : Char).isDigit := by decide
  have hslash : ¬('/' : Char).isDigit := by decide
  rcases magChars_form q1 with ⟨hd1, hf1⟩ | ⟨k1, hd1, hk1, hf1⟩ | ⟨hd1, hk1, hf1⟩ <;>
    rcases magChars_form q2 with ⟨hd2, hf2⟩ | ⟨k2, hd2, hk2, hf2⟩ | ⟨hd2, hk2, hf2⟩ <;>
    rw [hf1, hf2] at h
  · -- integer / integer
    obtain ⟨hm, hr⟩ := natChars_munch (sepCtx_not_digit hr1) (sepCtx_not_digit hr2) h
    exact ⟨rat_eq_of_parts h1 h2 hm (hd1.trans hd2.symm), hr⟩
  · -- integer / decimal
    rw [List.append_assoc, List.cons_append] at h
    obtain ⟨_, hr⟩ := natChars_munch (sepCtx_not_digit hr1)
      (head_cons_not_digit hdot _) h
    exact absurd (hr1 '.' (by rw [hr]; rfl)).2.1 (by simp)
  · -- integer / fraction
    rw [List.append_assoc, List.cons_append] at h
    obtain ⟨_, hr⟩ := natChars_munch (sepCtx_not_digit hr1)
      (head_cons_not_digit hslash _) h
    exact absurd (hr1 '/' (by rw [hr]; rfl)).2.2 (by simp)
  · -- decimal / integer
    rw [List.append_assoc, List.cons_append] at h
    obtain ⟨_, hr⟩ := natChars_munch (head_cons_not_digit hdot _)
      (sepCtx_not_digit hr2) h
    exact absurd (hr2 '.' (by rw [← hr]; rfl)).2.1 (by simp)
  · -- decimal / decimal
    rw [List.append_assoc, List.append_assoc, List.cons_append, List.cons_append] at h
    obtain ⟨hi, hr⟩ := natChars_munch (head_cons_not_digit hdot _)
      (head_cons_not_digit hdot _) h
    simp only [List.cons.injEq, true_and] at hr
    obtain ⟨hpad, hrr⟩ := digits_munch _ _ _ _
      (zeroPad_digits _ _ (natChars_digits _)) (zeroPad_digits _ _ (natChars_digits _))
      (sepCtx_not_digit hr1) (sepCtx_not_digit hr2) hr
    have hk1p := decExp_pos hd1 hk1
    have hk2p := decExp_pos hd2 hk2
    have hlen1 : (zeroPad k1 (natChars (nvOf q1 k1 % 10 ^ k1))).length = k1 :=
      zeroPad_length _ _ (natChars_length_le k1 _ hk1p
        (Nat.mod_lt _ (Nat.pos_pow_of_pos k1 (by norm_num))))
    have hlen2 : (zeroPad k2 (natChars (nvOf q2 k2 % 10 ^ k2))).length = k2 :=
      zeroPad_length _ _ (natChars_length_le k2 _ hk2p
        (Nat.mod_lt _ (Nat.pos_pow_of_pos k2 (by norm_num))))
    have hkk : k1 = k2 := by rw [← hlen1, ← hlen2, hpad]
    subst hkk
    have hfrac : nvOf q1 k1 % 10 ^ k1 = nvOf q2 k1 % 10 ^ k1 := by
      have := congrArg charsToNat hpad
      rwa [charsToNat_zeroPad, charsToNat_zeroPad, charsToNat_natChars,
        charsToNat_natChars] at this
    have hint : nvOf q1 k1 / 10 ^ k1 = nvOf q2 k1 / 10 ^ k1 := hi
    have hnv : nvOf q1 k1 = nvOf q2 k1 := by
      conv_lhs => rw [← Nat.div_add_mod (nvOf q1 k1) (10 ^ k1)]
      conv_rhs => rw [← Nat.div_add_mod (nvOf q2 k1) (10 ^ k1)]
      rw [hint, hfrac]
    have hq12 : q1 * 10 ^ k1 = q2 * 10 ^ k1 := by
      rw [← nvOf_eq h1 hk1, ← nvOf_eq h2 hk2, hnv]
    have hpow : ((10 : ℚ) ^ k1) ≠ 0 := by positivity
    exact ⟨mul_right_cancel₀ hpow hq12, hrr⟩
  · -- decimal / fraction
    rw [List.append_assoc, List.append_assoc, List.cons_append, List.cons_append] at h
    obtain ⟨_, hr⟩ := natChars_munch (head_cons_not_digit hdot _)
      (head_cons_not_digit hslash _) h
    simp at hr
  · -- fraction / integer
    rw [List.append_assoc, List.cons_append] at h
    obtain ⟨_, hr⟩ := natChars_munch (head_cons_not_digit hslash _)
      (sepCtx_not_digit hr2) h
    exact absurd (hr2 '/' (by rw [← hr]; rfl)).2.2 (by simp)
  · -- fraction / decimal
    rw [List.append_assoc, List.append_assoc, List.cons_append, List.cons_append] at h
    obtain ⟨_, hr⟩ := natChars_munch (head_cons_not_digit hslash _)
      (head_cons_not_digit hdot _) h
    simp at hr
  · -- fraction / fraction
    rw [List.append_assoc, List.append_assoc, List.cons_append, List.cons_append] at h
    obtain ⟨hp, hr⟩ := natChars_munch (head_cons_not_digit hslash _)
      (head_cons_not_digit hslash _) h
    simp only [List.cons.injEq, true_and] at hr
    obtain ⟨hd, hrr⟩ := natChars_munch (sepCtx_not_digit hr1) (sepCtx_not_digit hr2) hr
    exact ⟨rat_eq_of_parts h1 h2 hp hd, hrr⟩
theorem head?_append_ne {α : Type} {l r : List α} (hl : l ≠ []) :
    (l ++ r).head? = l.head? := by
  cases l with
  | nil => exact absurd rfl hl
  | cons x t => rfl

theorem magChars_ne_nil (q : ℚ) : magChars q ≠ [] := by
  rcases magChars_form q with ⟨_, hf⟩ | ⟨k, _, _, hf⟩ | ⟨_, _, hf⟩ <;> rw [hf]
  · exact natChars_ne_nil _
  · intro hc
    exact natChars_ne_nil _ (List.append_eq_nil.mp hc).1
  · intro hc
    exact natChars_ne_nil _ (List.append_eq_nil.mp hc).1

theorem numChars_inj {q1 q2 : ℚ} {r1 r2 : List Char}
    (hr1 : sepCtx r1) (hr2 : sepCtx r2)
    (h : numChars q1 ++ r1 = numChars q2 ++ r2) : q1 = q2 ∧ r1 = r2 := by
  have hmaghead : ∀ (q : ℚ) (r : List Char), ∃ c, (magChars q ++ r).head? = some c ∧
      c.isDigit := by
    intro q r
    rcases hl : magChars q with _ | ⟨c0, t0⟩
    · exact absurd hl (magChars_ne_nil q)
    · exact ⟨c0, by simp, magChars_head (by rw [hl]; rfl)⟩
  unfold numChars at h
  by_cases hq1 : q1 < 0 <;> by_cases hq2 : q2 < 0 <;>
    simp only [hq1, hq2, if_pos, if_neg, if_true, if_false, List.cons_append] at h
  · -- both negative
    simp only [List.cons.injEq, true_and] at h
    obtain ⟨hm, hr⟩ := magChars_inj (by linarith) (by linarith) hr1 hr2 h
    exact ⟨by linarith [neg_inj.mp hm], hr⟩
  · -- q1 < 0 ≤ q2
    obtain ⟨c, hc, hcd⟩ := hmaghead q2 r2
    have := congrArg List.head? h
    rw [hc] at this
    simp only [List.head?_cons, Option.some.injEq] at this
    subst this
    exact absurd hcd (by decide)
  · -- q2 < 0 ≤ q1
    obtain ⟨c, hc, hcd⟩ := hmaghead q1 r1
    have := congrArg List.head? h
    rw [hc] at this
    simp only [List.head?_cons, Option.some.injEq] at this
    exact absurd (this ▸ hcd) (by decide)
  · exact magChars_inj (by linarith) (by linarith) hr1 hr2 h
theorem string_data_inj {s1 s2 : String} (h : s1.data = s2.data) : s1 = s2 := by
  cases s1
  cases s2
  exact congrArg String.mk h

theorem quote_inj_ctx {s1 s2 : List Char} {u1 u2 : List Char}
    (h : quoteChars s1 ++ u1 = quoteChars s2 ++ u2) : s1 = s2 ∧ u1 = u2 := by
  simp only [quoteChars, List.cons_append, List.append_assoc, List.singleton_append,
    List.cons.injEq, true_and] at h
  exact quoted_munch s1 s2 u1 u2 h

theorem numChars_head_class (q : ℚ) (w : List Char) :
    ∃ c, (numChars q ++ w).head? = some c ∧ (c.isDigit ∨ c = '-') := by
  unfold numChars
  by_cases hq : q < 0 <;> simp only [hq, if_pos, if_neg, if_true, if_false]
  · exact ⟨'-', by simp, Or.inr rfl⟩
  · rcases hl : magChars q with _ | ⟨c0, t0⟩
    · exact absurd hl (magChars_ne_nil q)
    · exact ⟨c0, by simp, Or.inl (magChars_head (by rw [hl]; rfl))⟩

theorem segJson_head (y : Seg) (w : List Char) :
    ∃ c, (jsonChars (segToJSVal y) ++ w).head? = some c ∧
      (c = '"' ∨ c.isDigit ∨ c = '-') := by
  cases y with
  | str s => exact ⟨'"', by simp [segToJSVal, jsonChars, quoteChars], Or.inl rfl⟩
  | num q =>
    obtain ⟨c, hc, hcl⟩ := numChars_head_class q w
    exact ⟨c, by simpa [segToJSVal, jsonChars] using hc, Or.inr hcl⟩

theorem segJson_inj {x y : Seg} {u1 u2 : List Char} (hu1 : sepCtx u1) (hu2 : sepCtx u2)
    (h : jsonChars (segToJSVal x) ++ u1 = jsonChars (segToJSVal y) ++ u2) :
    x = y ∧ u1 = u2 := by
  cases x with
  | str s1 =>
    cases y with
    | str s2 =>
      simp only [segToJSVal, jsonChars] at h
      obtain ⟨hs, hu⟩ := quote_inj_ctx h
      exact ⟨by rw [string_data_inj hs], hu⟩
    | num q2 =>
      simp only [segToJSVal, jsonChars] at h
      obtain ⟨c, hc, hcl⟩ := numChars_head_class q2 u2
      have := congrArg List.head? h
      rw [hc] at this
      simp only [quoteChars, List.cons_append, List.head?_cons, Option.some.injEq] at this
      rcases hcl with hd | hm
      · subst this; exact absurd hd (by decide)
      · rw [← this] at hm; exact absurd hm (by decide)
  | num q1 =>
    cases y with
    | str s2 =>
      simp only [segToJSVal, jsonChars] at h
      obtain ⟨c, hc, hcl⟩ := numChars_head_class q1 u1
      have := congrArg List.head? h
      rw [hc] at this
      simp only [quoteChars, List.cons_append, List.head?_cons, Option.some.injEq] at this
      rcases hcl with hd | hm
      · rw [this] at hd; exact absurd hd (by decide)
      · rw [this] at hm; exact absurd hm (by decide)
    | num q2 =>
      simp only [segToJSVal, jsonChars] at h
      obtain ⟨hq, hu⟩ := numChars_inj hu1 hu2 h
      exact ⟨by rw [hq], hu⟩
theorem sepCtx_cons {c : Char} (hc : ¬c.isDigit ∧ c ≠ '.' ∧ c ≠ '/') (l : List Char) :
    sepCtx (c :: l) := by
  intro c' hc'
  simp only [List.head?_cons, Option.some.injEq] at hc'
  subst hc'
  exact hc

theorem sepCtx_rb (l : List Char) : sepCtx (']' :: l) :=
  sepCtx_cons (by refine ⟨by decide, by decide, by decide⟩) l

theorem sepCtx_comma (l : List Char) : sepCtx (',' :: l) :=
  sepCtx_cons (by refine ⟨by decide, by decide, by decide⟩) l

theorem sepCtx_cb (l : List Char) : sepCtx ('}' :: l) :=
  sepCtx_cons (by refine ⟨by decide, by decide, by decide⟩) l

theorem segs_head_ne_rb (y : Seg) (w : List Char) :
    (jsonChars (segToJSVal y) ++ w).head? ≠ some ']' := by
  obtain ⟨c, hc, hcl⟩ := segJson_head y w
  rw [hc]
  intro hcontra
  simp only [Option.some.injEq] at hcontra
  subst hcontra
  rcases hcl with h | h | h
  · exact absurd h (by decide)
  · exact absurd h (by decide)
  · exact absurd h (by decide)

theorem jsonItems_segs_inj : ∀ (p1 p2 : List Seg) (r1 r2 : List Char),
    jsonItems (p1.map segToJSVal) ++ ']' :: r1 =
      jsonItems (p2.map segToJSVal) ++ ']' :: r2 →
    p1 = p2 ∧ r1 = r2 := by
  intro p1
  induction p1 with
  | nil =>
    intro p2 r1 r2 h
    cases p2 with
    | nil =>
      simp only [List.map_nil, jsonItems, List.nil_append, List.cons.injEq] at h
      exact ⟨rfl, h.2⟩
    | cons y ys =>
      exfalso
      cases ys with
      | nil =>
        simp only [List.map_cons, List.map_nil, jsonItems, List.nil_append] at h
        exact segs_head_ne_rb y (']' :: r2) (by rw [← h]; rfl)
      | cons y2 t2 =>
        simp only [List.map_cons, jsonItems, List.nil_append, List.append_assoc,
          List.cons_append] at h
        exact segs_head_ne_rb y _ (by rw [← h]; rfl)
  | cons x xs ih =>
    intro p2 r1 r2 h
    cases p2 with
    | nil =>
      exfalso
      cases xs with
      | nil =>
        simp only [List.map_cons, List.map_nil, jsonItems, List.nil_append] at h
        exact segs_head_ne_rb x (']' :: r1) (by rw [h]; rfl)
      | cons x2 t2 =>
        simp only [List.map_cons, jsonItems, List.nil_append, List.append_assoc,
          List.cons_append] at h
        exact segs_head_ne_rb x _ (by rw [h]; rfl)
    | cons y ys =>
      cases xs with
      | nil =>
        cases ys with
        | nil =>
          simp only [List.map_cons, List.map_nil, jsonItems] at h
          obtain ⟨hxy, hu⟩ := segJson_inj (sepCtx_rb r1) (sepCtx_rb r2) h
          simp only [List.cons.injEq] at hu
          exact ⟨by rw [hxy], hu.2⟩
        | cons y2 t2 =>
          exfalso
          simp only [List.map_cons, List.map_nil, jsonItems, List.append_assoc,
            List.cons_append] at h
          obtain ⟨_, hu⟩ := segJson_inj (sepCtx_rb r1) (sepCtx_comma _) h
          simp at hu
      | cons x2 t2 =>
        cases ys with
        | nil =>
          exfalso
          simp only [List.map_cons, List.map_nil, jsonItems, List.append_assoc,
            List.cons_append] at h
          obtain ⟨_, hu⟩ := segJson_inj (sepCtx_comma _) (sepCtx_rb r2) h
          simp at hu
        | cons y2 t2' =>
          simp only [List.map_cons, jsonItems, List.append_assoc,
            List.cons_append] at h
          obtain ⟨hxy, hu⟩ := segJson_inj (sepCtx_comma _) (sepCtx_comma _) h
          simp only [List.cons.injEq, true_and] at hu
          obtain ⟨hts, hrr⟩ := ih (y2 :: t2') r1 r2 (by
            simpa [List.map_cons, jsonItems] using hu)
          exact ⟨by rw [hxy, hts], hrr⟩
/-- The `default` option of an accessor is a `LiteralValue` per the
`AccessorOptions` typedef: a boolean, a number, a string, or an array of
numbers. -/
def isLitVal : JSVal → Bool
  | .bool _ => true
  | .num _ => true
  | .str _ => true
  | .arr items => items.all fun x =>
      match x with
      | .num _ => true
      | _ => false
  | _ => false

theorem litArr_as_segs {items : List JSVal}
    (h : (items.all fun x =>
      match x with
      | JSVal.num _ => true
      | _ => false) = true) :
    ∃ qs : List ℚ, items = (qs.map Seg.num).map segToJSVal := by
  induction items with
  | nil => exact ⟨[], rfl⟩
  | cons x rest ih =>
    simp only [List.all_cons, Bool.and_eq_true] at h
    obtain ⟨qs, hqs⟩ := ih h.2
    cases x with
    | num q => exact ⟨q :: qs, by simp [hqs, segToJSVal]⟩
    | null => cases h.1
    | bool b => cases h.1
    | str s => cases h.1
    | arr l => cases h.1
    | obj f => cases h.1

/-- The leading character class of a serialized literal value: the four
classes (boolean word, number, quoted string, array) are disjoint. -/
theorem litJson_head (d : JSVal) (w : List Char) (hd : isLitVal d = true) :
    ∃ c, (jsonChars d ++ w).head? = some c ∧
      (match d with
       | .bool _ => c = 't' ∨ c = 'f'
       | .num _ => c.isDigit ∨ c = '-'
       | .str _ => c = '"'
       | _ => c = '[') := by
  cases d with
  | bool b =>
    cases b with
    | false => exact ⟨'f', rfl, Or.inr rfl⟩
    | true => exact ⟨'t', rfl, Or.inl rfl⟩
  | num q =>
    obtain ⟨c, hc, hcl⟩ := numChars_head_class q w
    exact ⟨c, by simpa [jsonChars] using hc, hcl⟩
  | str s => exact ⟨'"', by simp [jsonChars, quoteChars], rfl⟩
  | arr items => exact ⟨'[', by simp [jsonChars], rfl⟩
  | null => cases hd
  | obj f => cases hd

theorem litJson_inj {d1 d2 : JSVal} (h1 : isLitVal d1 = true)
    (h2 : isLitVal d2 = true) {r1 r2 : List Char}
    (h : jsonChars d1 ++ '}' :: r1 = jsonChars d2 ++ '}' :: r2) :
    d1 = d2 ∧ r1 = r2 := by
  obtain ⟨c1, hc1, hcl1⟩ := litJson_head d1 ('}' :: r1) h1
  obtain ⟨c2, hc2, hcl2⟩ := litJson_head d2 ('}' :: r2) h2
  have hcc : c1 = c2 := by
    have := congrArg List.head? h
    rw [hc1, hc2] at this
    simpa using this
  cases d1 with
  | bool b1 =>
    cases d2 with
    | bool b2 =>
      cases b1 <;> cases b2 <;> simp_all [jsonChars]
    | num q2 =>
      exfalso
      subst hcc
      rcases hcl1 with rfl | rfl <;> rcases hcl2 with hd | hd <;>
        first
          | exact absurd hd (by decide)
          | exact absurd hd.symm (by decide)
          | cases hd
    | str s2 =>
      exfalso
      subst hcc
      rcases hcl1 with rfl | rfl <;> cases hcl2
    | null => cases h2
    | obj f => cases h2
    | arr items =>
      exfalso
      subst hcc
      rcases hcl1 with rfl | rfl <;> cases hcl2
  | num q1 =>
    cases d2 with
    | bool b2 =>
      exfalso
      subst hcc
      rcases hcl2 with rfl | rfl <;> rcases hcl1 with hd | hd <;>
        first
          | exact absurd hd (by decide)
          | exact absurd hd.symm (by decide)
          | cases hd
    | num q2 =>
      simp only [jsonChars] at h
      obtain ⟨hq, hr⟩ := numChars_inj (sepCtx_cb r1) (sepCtx_cb r2) h
      simp only [List.cons.injEq, true_and] at hr
      exact ⟨by rw [hq], hr⟩
    | str s2 =>
      exfalso
      subst hcc
      rcases hcl1 with hd | hd
      · subst hcl2; exact absurd hd (by decide)
      · subst hcl2; cases hd
    | null => cases h2
    | obj f => cases h2
    | arr items =>
      exfalso
      subst hcc
      rcases hcl1 with hd | hd
      · subst hcl2; exact absurd hd (by decide)
      · subst hcl2; cases hd
  | str s1 =>
    cases d2 with
    | bool b2 =>
      exfalso
      subst hcc
      subst hcl1
      rcases hcl2 with hd | hd <;> cases hd
    | num q2 =>
      exfalso
      subst hcc
      subst hcl1
      rcases hcl2 with hd | hd
      · exact absurd hd (by decide)
      · cases hd
    | str s2 =>
      simp only [jsonChars] at h
      obtain ⟨hs, hr⟩ := quote_inj_ctx h
      simp only [List.cons.injEq, true_and] at hr
      exact ⟨by rw [string_data_inj hs], hr⟩
    | null => cases h2
    | obj f => cases h2
    | arr items =>
      exfalso
      subst hcc
      subst hcl1
      cases hcl2
  | null => cases h1
  | obj f => cases h1
  | arr items1 =>
    cases d2 with
    | bool b2 =>
      exfalso
      subst hcc
      subst hcl1
      rcases hcl2 with hd | hd <;> cases hd
    | num q2 =>
      exfalso
      subst hcc
      subst hcl1
      rcases hcl2 with hd | hd
      · exact absurd hd (by decide)
      · cases hd
    | str s2 =>
      exfalso
      subst hcc
      subst hcl1
      cases hcl2
    | null => cases h2
    | obj f => cases h2
    | arr items2 =>
      simp only [isLitVal] at h1 h2
      obtain ⟨qs1, hq1⟩ := litArr_as_segs h1
      obtain ⟨qs2, hq2⟩ := litArr_as_segs h2
      subst hq1
      subst hq2
      simp only [jsonChars, List.cons_append, List.append_assoc,
        List.singleton_append, List.cons.injEq, true_and] at h
      obtain ⟨hp, hr⟩ := jsonItems_segs_inj (qs1.map Seg.num) (qs2.map Seg.num)
        ('}' :: r1) ('}' :: r2) (by simpa [List.map_map] using h)
      have hqs : qs1 = qs2 :=
        List.map_injective_iff.mpr (fun a b hab => Seg.num.inj hab) hp
      simp only [List.cons.injEq, true_and] at hr
      exact ⟨by rw [hqs], hr⟩
theorem tyName_inj {t1 t2 : Ty} (h : t1.name = t2.name) : t1 = t2 := by
  cases t1 <;> cases t2 <;> first
    | rfl
    | exact absurd h (by decide)

theorem keyChars_eq (p : List Seg) (t : Ty) (d : Option JSVal) :
    jsonChars (accessorConfig p t d) =
      '{' :: '"' :: 'p' :: 'a' :: 't' :: 'h' :: '"' :: ':' :: '[' ::
        (jsonItems (p.map segToJSVal) ++ ']' :: ',' :: '"' :: 't' :: 'y' :: 'p' :: 'e' ::
          '"' :: ':' :: '"' :: (escChars (t.name).data ++ '"' ::
            (match d with
             | some dv => ',' :: '"' :: 'd' :: 'e' :: 'f' :: 'a' :: 'u' :: 'l' :: 't' ::
                 '"' :: ':' :: (jsonChars dv ++ ['}'])
             | none => ['}']))) := by
  have hpath : ("path").data = ['p', 'a', 't', 'h'] := rfl
  have htype : ("type").data = ['t', 'y', 'p', 'e'] := rfl
  have hdef : ("default").data = ['d', 'e', 'f', 'a', 'u', 'l', 't'] := rfl
  cases d <;>
    simp [accessorConfig, jsonChars, jsonFields, quoteChars, hpath, htype, hdef,
      escChars, escapeChar, List.append_assoc]

theorem keyForAccessor_inj {p1 p2 : List Seg} {t1 t2 : Ty} {d1 d2 : Option JSVal}
    (hl1 : ∀ dv, d1 = some dv → isLitVal dv = true)
    (hl2 : ∀ dv, d2 = some dv → isLitVal dv = true)
    (h : keyForAccessor p1 t1 d1 = keyForAccessor p2 t2 d2) :
    p1 = p2 ∧ t1 = t2 ∧ d1 = d2 := by
  unfold keyForAccessor jsonStr at h
  have hch : jsonChars (accessorConfig p1 t1 d1) =
      jsonChars (accessorConfig p2 t2 d2) := congrArg String.data h
  rw [keyChars_eq, keyChars_eq] at hch
  simp only [List.cons.injEq, true_and] at hch
  obtain ⟨hp, hrest⟩ := jsonItems_segs_inj p1 p2 _ _ hch
  simp only [List.cons.injEq, true_and] at hrest
  obtain ⟨htn, htail⟩ := quoted_munch _ _ _ _ hrest
  refine ⟨hp, tyName_inj (string_data_inj htn), ?_⟩
  cases d1 with
  | none =>
    cases d2 with
    | none => rfl
    | some dv2 => simp at htail
  | some dv1 =>
    cases d2 with
    | none => simp at htail
    | some dv2 =>
      simp only [List.cons.injEq, true_and] at htail
      have hsh : jsonChars dv1 ++ '}' :: ([] : List Char) =
          jsonChars dv2 ++ '}' :: ([] : List Char) := by
        simpa using htail
      obtain ⟨hd, _⟩ := litJson_inj (hl1 dv1 rfl) (hl2 dv2 rfl) hsh
      rw [hd]
theorem lookupKey_append_of_some {k : String} {L : List (String × AccessorInfo)}
    {v : AccessorInfo} (rest : List (String × AccessorInfo))
    (h : lookupKey k L = some v) : lookupKey k (L ++ rest) = some v := by
  induction L with
  | nil => cases h
  | cons p t ih =>
    rcases p with ⟨k', i⟩
    simp only [lookupKey, List.cons_append] at h ⊢
    split at h <;> split <;> simp_all

theorem lookupKey_append_of_none {k : String} {L : List (String × AccessorInfo)}
    (rest : List (String × AccessorInfo)) (h : lookupKey k L = none) :
    lookupKey k (L ++ rest) = lookupKey k rest := by
  induction L with
  | nil => rfl
  | cons p t ih =>
    rcases p with ⟨k', i⟩
    simp only [lookupKey, List.cons_append] at h ⊢
    split at h <;> split <;> simp_all

theorem registerIn_fresh (L : List (String × AccessorInfo)) (p : List Seg) (t : Ty)
    (f : List (String × JSVal))
    (hfresh : lookupKey (keyForAccessor p t (lookupField ("default") f)) L = none) :
    registerIn L p t f =
      ([Expr.lit .string (.s (keyForAccessor p t (lookupField ("default") f)))],
       L ++ [(keyForAccessor p t (lookupField ("default") f),
         ⟨p, t, slugOf p L.length, lookupField ("default") f⟩)]) := by
  simp [registerIn, hfresh]

theorem registerIn_found (L : List (String × AccessorInfo)) (p : List Seg) (t : Ty)
    (f : List (String × JSVal)) (v : AccessorInfo)
    (hfound : lookupKey (keyForAccessor p t (lookupField ("default") f)) L = some v) :
    registerIn L p t f =
      ([Expr.lit .string (.s (keyForAccessor p t (lookupField ("default") f)))], L) := by
  simp [registerIn, hfound]

/-- C2: accessor registration is keyed by the `(path, type, default)`
tuple.  With a fresh key, the first registration appends exactly one entry
whose slug joins the path with the count of entries already present; a
second registration with the identical tuple finds that entry and leaves
the mapping unchanged while returning the same argument list; and two
tuples that differ in path, type, or (literal-valued) default always have
different keys, so registering both yields two distinct entries with their
own slugs. -/
theorem claim_C2_registration
    (L : List (String × AccessorInfo)) (p1 p2 : List Seg) (t1 t2 : Ty)
    (f1 f2 : List (String × JSVal))
    (hl1 : ∀ dv, lookupField ("default") f1 = some dv → isLitVal dv = true)
    (hl2 : ∀ dv, lookupField ("default") f2 = some dv → isLitVal dv = true)
    (hfresh : lookupKey (keyForAccessor p1 t1 (lookupField ("default") f1)) L = none) :
    (lookupKey (keyForAccessor p1 t1 (lookupField ("default") f1))
        (registerIn L p1 t1 f1).2 =
      some ⟨p1, t1, slugOf p1 L.length, lookupField ("default") f1⟩) ∧
    (registerIn (registerIn L p1 t1 f1).2 p1 t1 f1 =
      ((registerIn L p1 t1 f1).1, (registerIn L p1 t1 f1).2)) ∧
    ((p1, t1, lookupField ("default") f1) ≠ (p2, t2, lookupField ("default") f2) →
      keyForAccessor p1 t1 (lookupField ("default") f1) ≠
        keyForAccessor p2 t2 (lookupField ("default") f2) ∧
      (lookupKey (keyForAccessor p2 t2 (lookupField ("default") f2)) L = none →
        lookupKey (keyForAccessor p1 t1 (lookupField ("default") f1))
            (registerIn (registerIn L p1 t1 f1).2 p2 t2 f2).2 =
          some ⟨p1, t1, slugOf p1 L.length, lookupField ("default") f1⟩ ∧
        lookupKey (keyForAccessor p2 t2 (lookupField ("default") f2))
            (registerIn (registerIn L p1 t1 f1).2 p2 t2 f2).2 =
          some ⟨p2, t2, slugOf p2 (L.length + 1), lookupField ("default") f2⟩)) := by
  have hreg1 := registerIn_fresh L p1 t1 f1 hfresh
  have hin1 : lookupKey (keyForAccessor p1 t1 (lookupField ("default") f1))
      (registerIn L p1 t1 f1).2 =
      some ⟨p1, t1, slugOf p1 L.length, lookupField ("default") f1⟩ := by
    rw [hreg1]
    rw [lookupKey_append_of_none _ hfresh]
    simp [lookupKey]
  refine ⟨hin1, ?_, ?_⟩
  · rw [registerIn_found _ p1 t1 f1 _ hin1, hreg1]
  · intro hne
    have hkeys : keyForAccessor p1 t1 (lookupField ("default") f1) ≠
        keyForAccessor p2 t2 (lookupField ("default") f2) := by
      intro hcontra
      obtain ⟨e1, e2, e3⟩ := keyForAccessor_inj hl1 hl2 hcontra
      exact hne (by rw [e1, e2, e3])
    refine ⟨hkeys, fun hfresh2 => ?_⟩
    have hfresh2' : lookupKey (keyForAccessor p2 t2 (lookupField ("default") f2))
        (registerIn L p1 t1 f1).2 = none := by
      rw [hreg1]
      rw [lookupKey_append_of_none _ hfresh2]
      simp only [lookupKey]
      rw [if_neg (fun hc => hkeys hc)]
    have hlen : (registerIn L p1 t1 f1).2.length = L.length + 1 := by
      rw [hreg1]
      simp
    have hreg2 := registerIn_fresh (registerIn L p1 t1 f1).2 p2 t2 f2 hfresh2'
    constructor
    · rw [hreg2]
      exact lookupKey_append_of_some _ hin1
    · rw [hreg2]
      rw [lookupKey_append_of_none _ hfresh2']
      simp [lookupKey, hlen]
theorem claim_C2_witness :
    lookupKey (keyForAccessor [Seg.str ("foo")] Ty.number (lookupField ("default") []))
        (registerIn [] [Seg.str ("foo")] Ty.number []).2 =
      some ⟨[Seg.str ("foo")], Ty.number, slugOf [Seg.str ("foo")] 0,
        lookupField ("default") []⟩ ∧
    keyForAccessor [Seg.str ("foo")] Ty.number (lookupField ("default") []) ≠
      keyForAccessor [Seg.str ("foo")] Ty.string (lookupField ("default") []) := by
  have h := claim_C2_registration [] [Seg.str ("foo")] [Seg.str ("foo")]
    Ty.number Ty.string [] []
    (fun dv hdv => by cases hdv) (fun dv hdv => by cases hdv) (by rfl)
  exact ⟨h.1, (h.2.2 (by simp)).1⟩
/-! ## Claims C6 and C10: context growth and the usage flags

A single induction over the parser establishes, for every reachable
computation, that the context only grows (no entry is removed, no flag is
reset), and that on success the flags gain exactly the operators present in
the produced nodes. -/

mutual

/-- Whether an expression contains a call to the given operator. -/
def exprHasOp (op : String) : Expr → Bool
  | .lit _ _ => false
  | .call _ o args => o == op || exprListHasOp op args

/-- Whether any expression of a list contains a call to the operator. -/
def exprListHasOp (op : String) : List Expr → Bool
  | [] => false
  | e :: rest => exprHasOp op e || exprListHasOp op rest

end

theorem exprListHasOp_append (op : String) (a b : List Expr) :
    exprListHasOp op (a ++ b) = (exprListHasOp op a || exprListHasOp op b) := by
  induction a with
  | nil => simp [exprListHasOp]
  | cons x t ih => simp [exprListHasOp, ih, Bool.or_assoc]

/-- The context only grows: every registered accessor entry survives with
its value, and the usage flags never fall back to `false`. -/
def CtxLe (s s' : ParsingContext) : Prop :=
  (∀ k v, lookupKey k s.props = some v → lookupKey k s'.props = some v) ∧
  (∀ k v, lookupKey k s.vars = some v → lookupKey k s'.vars = some v) ∧
  (s.featureId = true → s'.featureId = true) ∧
  (s.geometryType = true → s'.geometryType = true)

theorem CtxLe.refl (s : ParsingContext) : CtxLe s s :=
  ⟨fun _ _ h => h, fun _ _ h => h, id, id⟩

theorem CtxLe.trans {a b c : ParsingContext} (h1 : CtxLe a b) (h2 : CtxLe b c) :
    CtxLe a c :=
  ⟨fun k v h => h2.1 k v (h1.1 k v h), fun k v h => h2.2.1 k v (h1.2.1 k v h),
   fun h => h2.2.2.1 (h1.2.2.1 h), fun h => h2.2.2.2 (h1.2.2.2 h)⟩

/-- Combined induction statement for a computation producing an argument
list: the context grows, and on success the flags gain exactly the `id` /
`geometry-type` occurrences of the produced expressions. -/
def ListOK (m : PM (List Expr)) : Prop :=
  (∀ s, CtxLe s (m s).2) ∧
  (∀ s args s', m s = (.ok args, s') →
    s'.featureId = (s.featureId || exprListHasOp ("id") args) ∧
    s'.geometryType = (s.geometryType || exprListHasOp ("geometry-type") args))

/-- The analogous statement for a single produced expression. -/
def ExprOK (m : PM Expr) : Prop :=
  (∀ s, CtxLe s (m s).2) ∧
  (∀ s e s', m s = (.ok e, s') →
    s'.featureId = (s.featureId || exprHasOp ("id") e) ∧
    s'.geometryType = (s.geometryType || exprHasOp ("geometry-type") e))

/-- The dispatch-level statement: the operator itself accounts for the
flag set by `usesFeatureId` / `usesGeometryType`. -/
def DispOK (op : String) (m : PM (List Expr)) : Prop :=
  (∀ s, CtxLe s (m s).2) ∧
  (∀ s args s', m s = (.ok args, s') →
    s'.featureId = (s.featureId || ((op == "id") || exprListHasOp ("id") args)) ∧
    s'.geometryType =
      (s.geometryType || ((op == "geometry-type") || exprListHasOp ("geometry-type") args)))

/-- The induction hypothesis carried over the fuel. -/
def PF (n : Nat) : Prop := ∀ v t, ExprOK (parseF n v t)
theorem listOK_check_bind {c : Except String Unit} {m : PM (List Expr)}
    (hm : ListOK m) : ListOK (liftE c >>= fun _ => m) := by
  cases c with
  | ok u =>
    cases u
    exact ⟨fun s => hm.1 s, fun s args s' h => hm.2 s args s' h⟩
  | error e =>
    refine ⟨fun s => CtxLe.refl s, fun s args s' h => ?_⟩
    simp only [PM.bind_apply, liftE_apply, Prod.mk.injEq] at h
    cases h.1

theorem exprOK_mapErr {f : String → String} {m : PM Expr} (hm : ExprOK m) :
    ExprOK (mapErr f m) := by
  constructor
  · intro s
    have := hm.1 s
    simp only [mapErr_apply]
    rcases hms : m s with ⟨r, s2⟩
    rw [hms] at this
    cases r <;> exact this
  · intro s e s' h
    simp only [mapErr_apply] at h
    rcases hms : m s with ⟨r, s2⟩
    rw [hms] at h
    cases r with
    | ok a =>
      simp only [Prod.mk.injEq, Except.ok.injEq] at h
      exact h.1 ▸ h.2 ▸ hm.2 s a s2 hms
    | error msg =>
      simp only [Prod.mk.injEq] at h
      cases h.1

theorem listOK_liftE {e : Except String (List Expr)}
    (h : ∀ args, e = .ok args → exprListHasOp ("id") args = false ∧
      exprListHasOp ("geometry-type") args = false) : ListOK (liftE e) := by
  refine ⟨fun s => CtxLe.refl s, fun s args s' hh => ?_⟩
  simp only [liftE_apply, Prod.mk.injEq] at hh
  obtain ⟨h1, h2⟩ := hh
  obtain ⟨hi, hg⟩ := h args h1
  subst h2
  simp [hi, hg]

theorem listOK_perr (msg : String) : ListOK (perr msg) := by
  refine ⟨fun s => CtxLe.refl s, fun s args s' hh => ?_⟩
  simp only [perr_apply, Prod.mk.injEq] at hh
  cases hh.1

theorem withNoArgs_ok {op : String} {l : List JSVal} {args : List Expr}
    (h : withNoArgs op l = .ok args) : args = [] := by
  unfold withNoArgs at h
  split at h
  · exact (Except.ok.inj h).symm
  · cases h

theorem registerIn_lookup_mono (L : List (String × AccessorInfo)) (p : List Seg)
    (t : Ty) (f : List (String × JSVal)) :
    ∀ k v, lookupKey k L = some v → lookupKey k (registerIn L p t f).2 = some v := by
  intro k v h
  rcases hr : lookupKey (keyForAccessor p t (lookupField ("default") f)) L with _ | w
  · rw [registerIn_fresh _ _ _ _ hr]
    exact lookupKey_append_of_some _ h
  · rw [registerIn_found _ _ _ _ _ hr]
    exact h

theorem registerIn_fst (L : List (String × AccessorInfo)) (p : List Seg)
    (t : Ty) (f : List (String × JSVal)) :
    (registerIn L p t f).1 =
      [Expr.lit .string (.s (keyForAccessor p t (lookupField ("default") f)))] := by
  rcases hr : lookupKey (keyForAccessor p t (lookupField ("default") f)) L with _ | w
  · rw [registerIn_fresh _ _ _ _ hr]
  · rw [registerIn_found _ _ _ _ _ hr]

theorem listOK_withGetArgs (args : List JSVal) (t : Ty) :
    ListOK (withGetArgs args t) := by
  constructor
  · intro s
    unfold withGetArgs
    rcases hx : extractAccessor args with e | ⟨path, fields⟩
    · exact CtxLe.refl s
    · exact ⟨fun k v h => registerIn_lookup_mono _ _ _ _ k v h,
        fun k v h => h, id, id⟩
  · intro s res s' h
    unfold withGetArgs at h
    rcases hx : extractAccessor args with e | ⟨path, fields⟩ <;> rw [hx] at h
    · cases (Prod.mk.injEq _ _ _ _ ▸ h).1
    · simp only [Prod.mk.injEq, Except.ok.injEq] at h
      obtain ⟨h1, h2⟩ := h
      subst h1
      subst h2
      simp [registerIn_fst, exprListHasOp, exprHasOp]

theorem listOK_withVarArgs (args : List JSVal) (t : Ty) :
    ListOK (withVarArgs args t) := by
  constructor
  · intro s
    unfold withVarArgs
    rcases hx : extractAccessor args with e | ⟨path, fields⟩
    · exact CtxLe.refl s
    · exact ⟨fun k v h => h,
        fun k v h => registerIn_lookup_mono _ _ _ _ k v h, id, id⟩
  · intro s res s' h
    unfold withVarArgs at h
    rcases hx : extractAccessor args with e | ⟨path, fields⟩ <;> rw [hx] at h
    · cases (Prod.mk.injEq _ _ _ _ ▸ h).1
    · simp only [Prod.mk.injEq, Except.ok.injEq] at h
      obtain ⟨h1, h2⟩ := h
      subst h1
      subst h2
      simp [registerIn_fst, exprListHasOp, exprHasOp]

theorem dispOK_of_listOK {op : String} {m : PM (List Expr)}
    (h1 : (op == "id") = false) (h2 : (op == "geometry-type") = false)
    (hm : ListOK m) : DispOK op m := by
  refine ⟨hm.1, fun s args s' h => ?_⟩
  obtain ⟨hf, hg⟩ := hm.2 s args s' h
  rw [h1, h2, hf, hg]
  simp
theorem exprOK_ctx {m : PM Expr} (hm : ExprOK m) {s s1 : ParsingContext}
    {r : Except String Expr} (h : m s = (r, s1)) : CtxLe s s1 := by
  have hc := hm.1 s
  rw [h] at hc
  exact hc

theorem listOK_ctx {m : PM (List Expr)} (hm : ListOK m) {s s1 : ParsingContext}
    {r : Except String (List Expr)} (h : m s = (r, s1)) : CtxLe s s1 := by
  have hc := hm.1 s
  rw [h] at hc
  exact hc

theorem listOK_pure_nil : ListOK (pure ([] : List Expr) : PM (List Expr)) := by
  constructor
  · intro s
    exact CtxLe.refl s
  · intro s args s' h
    simp only [PM.pure_apply, Prod.mk.injEq, Except.ok.injEq] at h
    obtain ⟨h1, h2⟩ := h
    subst h1
    subst h2
    simp [exprListHasOp]

theorem listOK_cons {m1 : PM Expr} {m2 : PM (List Expr)}
    (h1 : ExprOK m1) (h2 : ListOK m2) :
    ListOK (do
      let e ← m1
      let es ← m2
      pure (e :: es)) := by
  constructor
  · intro s
    rcases hm1 : m1 s with ⟨r1, s1⟩
    cases r1 with
    | error e1 =>
      simp only [PM.bind_apply, hm1]
      exact exprOK_ctx h1 hm1
    | ok e =>
      rcases hm2 : m2 s1 with ⟨r2, s2⟩
      cases r2 with
      | error e2 =>
        simp only [PM.bind_apply, hm1, hm2]
        exact (exprOK_ctx h1 hm1).trans (listOK_ctx h2 hm2)
      | ok es =>
        simp only [PM.bind_apply, hm1, hm2, PM.pure_apply]
        exact (exprOK_ctx h1 hm1).trans (listOK_ctx h2 hm2)
  · intro s args s' h
    rcases hm1 : m1 s with ⟨r1, s1⟩
    cases r1 with
    | error e1 =>
      simp only [PM.bind_apply, hm1, Prod.mk.injEq] at h
      cases h.1
    | ok e =>
      rcases hm2 : m2 s1 with ⟨r2, s2⟩
      cases r2 with
      | error e2 =>
        simp only [PM.bind_apply, hm1, hm2, Prod.mk.injEq] at h
        cases h.1
      | ok es =>
        simp only [PM.bind_apply, hm1, hm2, PM.pure_apply, Prod.mk.injEq,
          Except.ok.injEq] at h
        obtain ⟨h3, h4⟩ := h
        subst h3
        subst h4
        obtain ⟨hf1, hg1⟩ := h1.2 s e s1 hm1
        obtain ⟨hf2, hg2⟩ := h2.2 s1 es s2 hm2
        constructor
        · rw [hf2, hf1]
          simp [exprListHasOp, Bool.or_assoc]
        · rw [hg2, hg1]
          simp [exprListHasOp, Bool.or_assoc]

theorem parseLit_no_op (v : JSVal) (t : Ty) (e : Expr) (op : String)
    (h : parseLit v t = .ok e) : exprHasOp op e = false := by
  unfold parseLit at h
  repeat' split at h
  all_goals cases h
  all_goals simp [exprHasOp]

theorem exprOK_parseLit (v : JSVal) (t : Ty) : ExprOK (liftE (parseLit v t)) := by
  constructor
  · intro s
    exact CtxLe.refl s
  · intro s e s' h
    simp only [liftE_apply, Prod.mk.injEq] at h
    obtain ⟨h1, h2⟩ := h
    subst h2
    simp [parseLit_no_op v t e _ h1]

theorem exprOK_perr (msg : String) : ExprOK (perr msg) := by
  refine ⟨fun s => CtxLe.refl s, fun s e s' hh => ?_⟩
  simp only [perr_apply, Prod.mk.injEq] at hh
  cases hh.1
theorem listOK_cons2 {m1 m2 : PM Expr} {m3 : PM (List Expr)}
    (h1 : ExprOK m1) (h2 : ExprOK m2) (h3 : ListOK m3) :
    ListOK (do
      let a ← m1
      let b ← m2
      let es ← m3
      pure (a :: b :: es)) := by
  constructor
  · intro s
    rcases hm1 : m1 s with ⟨r1, s1⟩
    cases r1 with
    | error e1 =>
      simp only [PM.bind_apply, hm1]
      exact exprOK_ctx h1 hm1
    | ok a =>
      rcases hm2 : m2 s1 with ⟨r2, s2⟩
      cases r2 with
      | error e2 =>
        simp only [PM.bind_apply, hm1, hm2]
        exact (exprOK_ctx h1 hm1).trans (exprOK_ctx h2 hm2)
      | ok b =>
        rcases hm3 : m3 s2 with ⟨r3, s3⟩
        cases r3 with
        | error e3 =>
          simp only [PM.bind_apply, hm1, hm2, hm3]
          exact ((exprOK_ctx h1 hm1).trans (exprOK_ctx h2 hm2)).trans
            (listOK_ctx h3 hm3)
        | ok es =>
          simp only [PM.bind_apply, hm1, hm2, hm3, PM.pure_apply]
          exact ((exprOK_ctx h1 hm1).trans (exprOK_ctx h2 hm2)).trans
            (listOK_ctx h3 hm3)
  · intro s args s' h
    rcases hm1 : m1 s with ⟨r1, s1⟩
    cases r1 with
    | error e1 =>
      simp only [PM.bind_apply, hm1, Prod.mk.injEq] at h
      cases h.1
    | ok a =>
      rcases hm2 : m2 s1 with ⟨r2, s2⟩
      cases r2 with
      | error e2 =>
        simp only [PM.bind_apply, hm1, hm2, Prod.mk.injEq] at h
        cases h.1
      | ok b =>
        rcases hm3 : m3 s2 with ⟨r3, s3⟩
        cases r3 with
        | error e3 =>
          simp only [PM.bind_apply, hm1, hm2, hm3, Prod.mk.injEq] at h
          cases h.1
        | ok es =>
          simp only [PM.bind_apply, hm1, hm2, hm3, PM.pure_apply, Prod.mk.injEq,
            Except.ok.injEq] at h
          obtain ⟨h4, h5⟩ := h
          subst h4
          subst h5
          obtain ⟨hf1, hg1⟩ := h1.2 s a s1 hm1
          obtain ⟨hf2, hg2⟩ := h2.2 s1 b s2 hm2
          obtain ⟨hf3, hg3⟩ := h3.2 s2 es s3 hm3
          constructor
          · rw [hf3, hf2, hf1]
            simp [exprListHasOp, Bool.or_assoc]
          · rw [hg3, hg2, hg1]
            simp [exprListHasOp, Bool.or_assoc]

theorem listOK_bind_perr {m1 : PM Expr} (h1 : ExprOK m1) (msg : String) :
    ListOK (do
      let _ ← m1
      (perr msg : PM (List Expr))) := by
  constructor
  · intro s
    rcases hm1 : m1 s with ⟨r1, s1⟩
    cases r1 with
    | error e1 =>
      simp only [PM.bind_apply, hm1]
      exact exprOK_ctx h1 hm1
    | ok e =>
      simp only [PM.bind_apply, hm1, perr_apply]
      exact exprOK_ctx h1 hm1
  · intro s args s' h
    rcases hm1 : m1 s with ⟨r1, s1⟩
    cases r1 with
    | error e1 =>
      simp only [PM.bind_apply, hm1, Prod.mk.injEq] at h
      cases h.1
    | ok e =>
      simp only [PM.bind_apply, hm1, perr_apply, Prod.mk.injEq] at h
      cases h.1

theorem listOK_match_shape {m1 m2 : PM Expr} {k : Expr → Expr → PM (List Expr)}
    (h1 : ExprOK m1) (h2 : ExprOK m2) (hk : ∀ a b, ListOK (k a b)) :
    ListOK (do
      let input ← m1
      let fallback ← m2
      let mid ← k input fallback
      pure (input :: (mid ++ [fallback]))) := by
  constructor
  · intro s
    rcases hm1 : m1 s with ⟨r1, s1⟩
    cases r1 with
    | error e1 =>
      simp only [PM.bind_apply, hm1]
      exact exprOK_ctx h1 hm1
    | ok input =>
      rcases hm2 : m2 s1 with ⟨r2, s2⟩
      cases r2 with
      | error e2 =>
        simp only [PM.bind_apply, hm1, hm2]
        exact (exprOK_ctx h1 hm1).trans (exprOK_ctx h2 hm2)
      | ok fb =>
        rcases hm3 : k input fb s2 with ⟨r3, s3⟩
        cases r3 with
        | error e3 =>
          simp only [PM.bind_apply, hm1, hm2, hm3]
          exact ((exprOK_ctx h1 hm1).trans (exprOK_ctx h2 hm2)).trans
            (listOK_ctx (hk input fb) hm3)
        | ok mid =>
          simp only [PM.bind_apply, hm1, hm2, hm3, PM.pure_apply]
          exact ((exprOK_ctx h1 hm1).trans (exprOK_ctx h2 hm2)).trans
            (listOK_ctx (hk input fb) hm3)
  · intro s args s' h
    rcases hm1 : m1 s with ⟨r1, s1⟩
    cases r1 with
    | error e1 =>
      simp only [PM.bind_apply, hm1, Prod.mk.injEq] at h
      cases h.1
    | ok input =>
      rcases hm2 : m2 s1 with ⟨r2, s2⟩
      cases r2 with
      | error e2 =>
        simp only [PM.bind_apply, hm1, hm2, Prod.mk.injEq] at h
        cases h.1
      | ok fb =>
        rcases hm3 : k input fb s2 with ⟨r3, s3⟩
        cases r3 with
        | error e3 =>
          simp only [PM.bind_apply, hm1, hm2, hm3, Prod.mk.injEq] at h
          cases h.1
        | ok mid =>
          simp only [PM.bind_apply, hm1, hm2, hm3, PM.pure_apply, Prod.mk.injEq,
            Except.ok.injEq] at h
          obtain ⟨h4, h5⟩ := h
          subst h4
          subst h5
          obtain ⟨hf1, hg1⟩ := h1.2 s input s1 hm1
          obtain ⟨hf2, hg2⟩ := h2.2 s1 fb s2 hm2
          obtain ⟨hf3, hg3⟩ := (hk input fb).2 s2 mid s3 hm3
          constructor
          · rw [hf3, hf2, hf1]
            simp [exprListHasOp, exprListHasOp_append, Bool.or_assoc, Bool.or_comm,
              Bool.or_left_comm]
          · rw [hg3, hg2, hg1]
            simp [exprListHasOp, exprListHasOp_append, Bool.or_assoc, Bool.or_comm,
              Bool.or_left_comm]
theorem listOK_case_shape {m1 : PM Expr} {k : Expr → PM (List Expr)}
    (h1 : ExprOK m1) (hk : ∀ a, ListOK (k a)) :
    ListOK (do
      let fallback ← m1
      let mid ← k fallback
      pure (mid ++ [fallback])) := by
  constructor
  · intro s
    rcases hm1 : m1 s with ⟨r1, s1⟩
    cases r1 with
    | error e1 =>
      simp only [PM.bind_apply, hm1]
      exact exprOK_ctx h1 hm1
    | ok fb =>
      rcases hm2 : k fb s1 with ⟨r2, s2⟩
      cases r2 with
      | error e2 =>
        simp only [PM.bind_apply, hm1, hm2]
        exact (exprOK_ctx h1 hm1).trans (listOK_ctx (hk fb) hm2)
      | ok mid =>
        simp only [PM.bind_apply, hm1, hm2, PM.pure_apply]
        exact (exprOK_ctx h1 hm1).trans (listOK_ctx (hk fb) hm2)
  · intro s args s' h
    rcases hm1 : m1 s with ⟨r1, s1⟩
    cases r1 with
    | error e1 =>
      simp only [PM.bind_apply, hm1, Prod.mk.injEq] at h
      cases h.1
    | ok fb =>
      rcases hm2 : k fb s1 with ⟨r2, s2⟩
      cases r2 with
      | error e2 =>
        simp only [PM.bind_apply, hm1, hm2, Prod.mk.injEq] at h
        cases h.1
      | ok mid =>
        simp only [PM.bind_apply, hm1, hm2, PM.pure_apply, Prod.mk.injEq,
          Except.ok.injEq] at h
        obtain ⟨h4, h5⟩ := h
        subst h4
        subst h5
        obtain ⟨hf1, hg1⟩ := h1.2 s fb s1 hm1
        obtain ⟨hf2, hg2⟩ := (hk fb).2 s1 mid s2 hm2
        constructor
        · rw [hf2, hf1]
          simp [exprListHasOp, exprListHasOp_append, Bool.or_assoc, Bool.or_comm,
            Bool.or_left_comm]
        · rw [hg2, hg1]
          simp [exprListHasOp, exprListHasOp_append, Bool.or_assoc, Bool.or_comm,
            Bool.or_left_comm]

theorem listOK_in_shape {m1 : PM (List Expr)} {m2 : PM Expr}
    (h1 : ListOK m1) (h2 : ExprOK m2) :
    ListOK (do
      let items ← m1
      let needle ← m2
      pure (needle :: items)) := by
  constructor
  · intro s
    rcases hm1 : m1 s with ⟨r1, s1⟩
    cases r1 with
    | error e1 =>
      simp only [PM.bind_apply, hm1]
      exact listOK_ctx h1 hm1
    | ok items =>
      rcases hm2 : m2 s1 with ⟨r2, s2⟩
      cases r2 with
      | error e2 =>
        simp only [PM.bind_apply, hm1, hm2]
        exact (listOK_ctx h1 hm1).trans (exprOK_ctx h2 hm2)
      | ok needle =>
        simp only [PM.bind_apply, hm1, hm2, PM.pure_apply]
        exact (listOK_ctx h1 hm1).trans (exprOK_ctx h2 hm2)
  · intro s args s' h
    rcases hm1 : m1 s with ⟨r1, s1⟩
    cases r1 with
    | error e1 =>
      simp only [PM.bind_apply, hm1, Prod.mk.injEq] at h
      cases h.1
    | ok items =>
      rcases hm2 : m2 s1 with ⟨r2, s2⟩
      cases r2 with
      | error e2 =>
        simp only [PM.bind_apply, hm1, hm2, Prod.mk.injEq] at h
        cases h.1
      | ok needle =>
        simp only [PM.bind_apply, hm1, hm2, PM.pure_apply, Prod.mk.injEq,
          Except.ok.injEq] at h
        obtain ⟨h4, h5⟩ := h
        subst h4
        subst h5
        obtain ⟨hf1, hg1⟩ := h1.2 s items s1 hm1
        obtain ⟨hf2, hg2⟩ := h2.2 s1 needle s2 hm2
        constructor
        · rw [hf2, hf1]
          simp [exprListHasOp, Bool.or_assoc, Bool.or_comm, Bool.or_left_comm]
        · rw [hg2, hg1]
          simp [exprListHasOp, Bool.or_assoc, Bool.or_comm, Bool.or_left_comm]

theorem interpolationBase_state (v : JSVal) (s : ParsingContext) :
    (interpolationBase v s).2 = s := by
  unfold interpolationBase
  split
  · rfl
  · rename_i brest
    rcases hh : brest.head? with _ | x
    · rfl
    · rcases x <;> (try rfl)
      rename_i b
      by_cases hb : b ≤ 0 <;> simp [hb]
  · rfl

theorem listOK_interp_shape {m1 : PM ℚ} {m2 : PM Expr} {m3 : PM (List Expr)}
    (h1 : ∀ s, (m1 s).2 = s) (h2 : ExprOK m2) (h3 : ListOK m3) :
    ListOK (do
      let base ← m1
      let input ← m2
      let stops ← m3
      pure (Expr.lit .number (.n base) :: input :: stops)) := by
  constructor
  · intro s
    rcases hm1 : m1 s with ⟨r1, s1⟩
    have hs1 : s1 = s := by
      have := h1 s
      rw [hm1] at this
      exact this
    subst hs1
    cases r1 with
    | error e1 =>
      simp only [PM.bind_apply, hm1]
      exact CtxLe.refl s1
    | ok base =>
      rcases hm2 : m2 s1 with ⟨r2, s2⟩
      cases r2 with
      | error e2 =>
        simp only [PM.bind_apply, hm1, hm2]
        exact exprOK_ctx h2 hm2
      | ok input =>
        rcases hm3 : m3 s2 with ⟨r3, s3⟩
        cases r3 with
        | error e3 =>
          simp only [PM.bind_apply, hm1, hm2, hm3]
          exact (exprOK_ctx h2 hm2).trans (listOK_ctx h3 hm3)
        | ok stops =>
          simp only [PM.bind_apply, hm1, hm2, hm3, PM.pure_apply]
          exact (exprOK_ctx h2 hm2).trans (listOK_ctx h3 hm3)
  · intro s args s' h
    rcases hm1 : m1 s with ⟨r1, s1⟩
    have hs1 : s1 = s := by
      have := h1 s
      rw [hm1] at this
      exact this
    subst hs1
    cases r1 with
    | error e1 =>
      simp only [PM.bind_apply, hm1, Prod.mk.injEq] at h
      cases h.1
    | ok base =>
      rcases hm2 : m2 s1 with ⟨r2, s2⟩
      cases r2 with
      | error e2 =>
        simp only [PM.bind_apply, hm1, hm2, Prod.mk.injEq] at h
        cases h.1
      | ok input =>
        rcases hm3 : m3 s2 with ⟨r3, s3⟩
        cases r3 with
        | error e3 =>
          simp only [PM.bind_apply, hm1, hm2, hm3, Prod.mk.injEq] at h
          cases h.1
        | ok stops =>
          simp only [PM.bind_apply, hm1, hm2, hm3, PM.pure_apply, Prod.mk.injEq,
            Except.ok.injEq] at h
          obtain ⟨h4, h5⟩ := h
          subst h4
          subst h5
          obtain ⟨hf2, hg2⟩ := h2.2 s1 input s2 hm2
          obtain ⟨hf3, hg3⟩ := h3.2 s2 stops s3 hm3
          constructor
          · rw [hf3, hf2]
            simp [exprListHasOp, exprHasOp, Bool.or_assoc]
          · rw [hg3, hg2]
            simp [exprListHasOp, exprHasOp, Bool.or_assoc]
theorem argsOfType_ok (n : Nat) (hpf : PF n) (t : Ty) :
    ∀ l : List JSVal, ListOK (argsOfType n t l)
  | [] => by
    simp only [argsOfType]
    exact listOK_pure_nil
  | x :: rest => by
    simp only [argsOfType]
    exact listOK_cons (hpf x t) (argsOfType_ok n hpf t rest)

theorem hayItems_ok (n : Nat) (hpf : PF n) (t : Ty) :
    ∀ (l : List JSVal) (i : Nat), ListOK (hayItems n i t l)
  | [], _ => by
    simp only [hayItems]
    exact listOK_pure_nil
  | x :: rest, i => by
    simp only [hayItems]
    exact listOK_cons (exprOK_mapErr (hpf x t)) (hayItems_ok n hpf t rest (i + 1))

theorem matchPairs_ok (n : Nat) (hpf : PF n) :
    ∀ (l : List JSVal) (i : Nat) (tIn tOut : Ty), ListOK (matchPairs n i tIn tOut l)
  | [], _, _, _ => by
    simp only [matchPairs]
    exact listOK_pure_nil
  | [_], _, _, _ => by
    simp only [matchPairs]
    exact listOK_perr _
  | m0 :: o0 :: rest, i, tIn, tOut => by
    simp only [matchPairs]
    exact listOK_cons2 (exprOK_mapErr (hpf m0 tIn)) (exprOK_mapErr (hpf o0 tOut))
      (matchPairs_ok n hpf rest (i + 2) tIn tOut)

theorem casePairs_ok (n : Nat) (hpf : PF n) :
    ∀ (l : List JSVal) (i : Nat) (tOut : Ty), ListOK (casePairs n i tOut l)
  | [], _, _ => by
    simp only [casePairs]
    exact listOK_pure_nil
  | [_], _, _ => by
    simp only [casePairs]
    exact listOK_perr _
  | c0 :: o0 :: rest, i, tOut => by
    simp only [casePairs]
    exact listOK_cons2 (exprOK_mapErr (hpf c0 .boolean)) (exprOK_mapErr (hpf o0 tOut))
      (casePairs_ok n hpf rest (i + 2) tOut)

theorem interpStops_ok (n : Nat) (hpf : PF n) :
    ∀ (l : List JSVal) (i : Nat) (t : Ty), ListOK (interpStops n i t l)
  | [], _, _ => by
    simp only [interpStops]
    exact listOK_pure_nil
  | [_], _, _ => by
    simp only [interpStops]
    exact listOK_perr _
  | s0 :: o0 :: rest, i, t => by
    simp only [interpStops]
    exact listOK_cons2 (exprOK_mapErr (hpf s0 .number)) (exprOK_mapErr (hpf o0 t))
      (interpStops_ok n hpf rest (i + 2) t)
theorem listOK_palette_shape {m1 : PM Expr} {k : PM (List Expr)} {msg : String}
    (h1 : ExprOK m1) (hk : ListOK k) :
    ListOK (do
      let c ← m1
      match c with
      | .lit _ _ => do
        let es ← k
        pure (c :: es)
      | _ => (perr msg : PM (List Expr))) := by
  constructor
  · intro s
    rcases hm1 : m1 s with ⟨r1, s1⟩
    cases r1 with
    | error e1 =>
      simp only [PM.bind_apply, hm1]
      exact exprOK_ctx h1 hm1
    | ok c =>
      cases c with
      | lit t lv =>
        rcases hm2 : k s1 with ⟨r2, s2⟩
        cases r2 with
        | error e2 =>
          simp only [PM.bind_apply, hm1, hm2]
          exact (exprOK_ctx h1 hm1).trans (listOK_ctx hk hm2)
        | ok es =>
          simp only [PM.bind_apply, hm1, hm2, PM.pure_apply]
          exact (exprOK_ctx h1 hm1).trans (listOK_ctx hk hm2)
      | call t op cargs =>
        simp only [PM.bind_apply, hm1, perr_apply]
        exact exprOK_ctx h1 hm1
  · intro s args s' h
    rcases hm1 : m1 s with ⟨r1, s1⟩
    cases r1 with
    | error e1 =>
      simp only [PM.bind_apply, hm1, Prod.mk.injEq] at h
      cases h.1
    | ok c =>
      cases c with
      | lit t lv =>
        rcases hm2 : k s1 with ⟨r2, s2⟩
        cases r2 with
        | error e2 =>
          simp only [PM.bind_apply, hm1, hm2, Prod.mk.injEq] at h
          cases h.1
        | ok es =>
          simp only [PM.bind_apply, hm1, hm2, PM.pure_apply, Prod.mk.injEq,
            Except.ok.injEq] at h
          obtain ⟨h4, h5⟩ := h
          subst h4
          subst h5
          obtain ⟨hf1, hg1⟩ := h1.2 s (Expr.lit t lv) s1 hm1
          obtain ⟨hf2, hg2⟩ := hk.2 s1 es s2 hm2
          constructor
          · rw [hf2, hf1]
            simp [exprListHasOp, Bool.or_assoc]
          · rw [hg2, hg1]
            simp [exprListHasOp, Bool.or_assoc]
      | call t op cargs =>
        simp only [PM.bind_apply, hm1, perr_apply, Prod.mk.injEq] at h
        cases h.1

theorem paletteColors_ok (n : Nat) (hpf : PF n) :
    ∀ (l : List JSVal) (i : Nat), ListOK (paletteColors n i l)
  | [], _ => by
    simp only [paletteColors]
    exact listOK_pure_nil
  | c0 :: rest, i => by
    simp only [paletteColors]
    exact listOK_palette_shape (exprOK_mapErr (hpf c0 .color))
      (paletteColors_ok n hpf rest (i + 1))

theorem paletteValidator_ok (n : Nat) (hpf : PF n) (l : List JSVal) :
    ListOK (paletteValidator n l) := by
  match l with
  | [] =>
    simp only [paletteValidator]
    exact listOK_perr _
  | [_] =>
    simp only [paletteValidator]
    exact listOK_perr _
  | _ :: _ :: _ :: _ =>
    simp only [paletteValidator]
    exact listOK_perr _
  | [indexE, colorsE] =>
    cases colorsE with
    | arr colors =>
      simp only [paletteValidator]
      exact listOK_cons (exprOK_mapErr (hpf indexE .number))
        (paletteColors_ok n hpf colors 0)
    | null =>
      simp only [paletteValidator]
      exact listOK_bind_perr (exprOK_mapErr (hpf indexE .number)) _
    | bool b =>
      simp only [paletteValidator]
      exact listOK_bind_perr (exprOK_mapErr (hpf indexE .number)) _
    | num q =>
      simp only [paletteValidator]
      exact listOK_bind_perr (exprOK_mapErr (hpf indexE .number)) _
    | str s0 =>
      simp only [paletteValidator]
      exact listOK_bind_perr (exprOK_mapErr (hpf indexE .number)) _
    | obj fields =>
      simp only [paletteValidator]
      exact listOK_bind_perr (exprOK_mapErr (hpf indexE .number)) _

theorem matchValidator_ok (n : Nat) (hpf : PF n) (inputT : Ty) (l : List JSVal)
    (t : Ty) : ListOK (matchValidator n inputT l t) := by
  cases l with
  | nil =>
    simp only [matchValidator]
    exact listOK_perr _
  | cons a0 rest =>
    rcases hgl : rest.getLast? with _ | fbe
    · simp only [matchValidator, hgl]
      exact listOK_bind_perr (hpf a0 inputT) _
    · simp only [matchValidator, hgl]
      exact listOK_match_shape (hpf a0 inputT) (hpf fbe t)
        (fun a b => matchPairs_ok n hpf rest.dropLast 1 a.type b.type)

theorem caseValidator_ok (n : Nat) (hpf : PF n) (l : List JSVal) (t : Ty) :
    ListOK (caseValidator n l t) := by
  rcases hgl : l.getLast? with _ | fbe
  · simp only [caseValidator, hgl]
    exact listOK_perr _
  · simp only [caseValidator, hgl]
    exact listOK_case_shape (hpf fbe t)
      (fun a => casePairs_ok n hpf l.dropLast 0 a.type)

theorem interpolateValidator_ok (n : Nat) (hpf : PF n) (l : List JSVal) (t : Ty) :
    ListOK (interpolateValidator n l t) := by
  match l with
  | [] =>
    simp only [interpolateValidator]
    exact listOK_perr _
  | [_] =>
    simp only [interpolateValidator]
    exact listOK_perr _
  | interpE :: inputE :: stopsE =>
    simp only [interpolateValidator]
    exact listOK_interp_shape (interpolationBase_state interpE)
      (exprOK_mapErr (hpf inputE .number)) (interpStops_ok n hpf stopsE 2 t)
theorem inValidator_ok (n : Nat) (hpf : PF n) (l : List JSVal) :
    ListOK (inValidator n l) := by
  match l with
  | [] =>
    simp only [inValidator]
    exact listOK_perr _
  | [_] =>
    simp only [inValidator]
    exact listOK_perr _
  | _ :: _ :: _ :: _ =>
    simp only [inValidator]
    exact listOK_perr _
  | [needleE, hayV] =>
    cases hayV with
    | arr hay =>
      match hay with
      | [] =>
        simp only [inValidator]
        exact listOK_in_shape (hayItems_ok n hpf .number [] 0) (hpf needleE .number)
      | .str s0 :: hrest =>
        by_cases hs : s0 = ("literal")
        · subst hs
          match hrest with
          | [] =>
            simp [inValidator]
            exact listOK_perr _
          | .arr inner :: _ =>
            simp [inValidator]
            exact listOK_in_shape (hayItems_ok n hpf .string inner 0)
              (hpf needleE .string)
          | .null :: _ =>
            simp [inValidator]
            exact listOK_perr _
          | .bool _ :: _ =>
            simp [inValidator]
            exact listOK_perr _
          | .num _ :: _ =>
            simp [inValidator]
            exact listOK_perr _
          | .str _ :: _ =>
            simp [inValidator]
            exact listOK_perr _
          | .obj _ :: _ =>
            simp [inValidator]
            exact listOK_perr _
        · rw [show inValidator n [needleE, JSVal.arr (JSVal.str s0 :: hrest)] =
            perr ("for the \"in\" operator, a string array should be wrapped in a \"literal\" operator to disambiguate from expressions") by
              rw [inValidator.eq_def]
              simp [hs]]
          exact listOK_perr _
      | .null :: hrest =>
        simp only [inValidator]
        exact listOK_in_shape (hayItems_ok n hpf .number _ 0) (hpf needleE .number)
      | .bool _ :: hrest =>
        simp only [inValidator]
        exact listOK_in_shape (hayItems_ok n hpf .number _ 0) (hpf needleE .number)
      | .num _ :: hrest =>
        simp only [inValidator]
        exact listOK_in_shape (hayItems_ok n hpf .number _ 0) (hpf needleE .number)
      | .arr _ :: hrest =>
        simp only [inValidator]
        exact listOK_in_shape (hayItems_ok n hpf .number _ 0) (hpf needleE .number)
      | .obj _ :: hrest =>
        simp only [inValidator]
        exact listOK_in_shape (hayItems_ok n hpf .number _ 0) (hpf needleE .number)
    | null =>
      simp only [inValidator]
      exact listOK_perr _
    | bool b =>
      simp only [inValidator]
      exact listOK_perr _
    | num q =>
      simp only [inValidator]
      exact listOK_perr _
    | str s0 =>
      simp only [inValidator]
      exact listOK_perr _
    | obj fields =>
      simp only [inValidator]
      exact listOK_perr _
theorem listOK_withNoArgs (op : String) (l : List JSVal) :
    ListOK (liftE (withNoArgs op l)) :=
  listOK_liftE (fun args h => by
    have hnil := withNoArgs_ok h
    subst hnil
    constructor <;> simp [exprListHasOp])

theorem dispOK_id (args : List JSVal) :
    DispOK ("id") (do
      usesFeatureId
      liftE (withNoArgs ("id") args)) := by
  constructor
  · intro s
    simp only [PM.bind_apply, usesFeatureId, liftE_apply]
    exact ⟨fun k v h => h, fun k v h => h, fun _ => rfl, fun h => h⟩
  · intro s args2 s' h
    simp only [PM.bind_apply, usesFeatureId, liftE_apply] at h
    rcases hw : withNoArgs ("id") args with e | res <;> rw [hw] at h
    · simp only [Prod.mk.injEq] at h
      cases h.1
    · have hnil := withNoArgs_ok hw
      subst hnil
      simp only [Prod.mk.injEq, Except.ok.injEq] at h
      obtain ⟨h1, h2⟩ := h
      subst h1
      subst h2
      constructor <;> simp [exprListHasOp]

theorem dispOK_geom (args : List JSVal) :
    DispOK ("geometry-type") (do
      usesGeometryType
      liftE (withNoArgs ("geometry-type") args)) := by
  constructor
  · intro s
    simp only [PM.bind_apply, usesGeometryType, liftE_apply]
    exact ⟨fun k v h => h, fun k v h => h, fun h => h, fun _ => rfl⟩
  · intro s args2 s' h
    simp only [PM.bind_apply, usesGeometryType, liftE_apply] at h
    rcases hw : withNoArgs ("geometry-type") args with e | res <;> rw [hw] at h
    · simp only [Prod.mk.injEq] at h
      cases h.1
    · have hnil := withNoArgs_ok hw
      subst hnil
      simp only [Prod.mk.injEq, Except.ok.injEq] at h
      obtain ⟨h1, h2⟩ := h
      subst h1
      subst h2
      constructor <;> simp [exprListHasOp]

theorem dispOK_perr (op : String) (msg : String) : DispOK op (perr msg) := by
  refine ⟨fun s => CtxLe.refl s, fun s args s' h => ?_⟩
  simp only [perr_apply, Prod.mk.injEq] at h
  cases h.1

theorem dispatchOp_ok (n : Nat) (hpf : PF n) (op : String) (args : List JSVal)
    (t : Ty) : DispOK op (dispatchOp n op args t) := by
  rw [dispatchOp.eq_def]
  split
  split
  all_goals first
    | exact dispOK_perr _ _
    | exact dispOK_id args
    | exact dispOK_geom args
    | exact dispOK_of_listOK (by decide) (by decide) (listOK_withNoArgs _ args)
    | exact dispOK_of_listOK (by decide) (by decide)
        (listOK_check_bind (listOK_withGetArgs args t))
    | exact dispOK_of_listOK (by decide) (by decide)
        (listOK_check_bind (listOK_withVarArgs args t))
    | exact dispOK_of_listOK (by decide) (by decide)
        (listOK_check_bind (argsOfType_ok n hpf _ args))
    | exact dispOK_of_listOK (by decide) (by decide)
        (listOK_check_bind (listOK_check_bind (matchValidator_ok n hpf _ args t)))
    | exact dispOK_of_listOK (by decide) (by decide)
        (listOK_check_bind (listOK_check_bind (interpolateValidator_ok n hpf args t)))
    | exact dispOK_of_listOK (by decide) (by decide)
        (listOK_check_bind (listOK_check_bind (caseValidator_ok n hpf args t)))
    | exact dispOK_of_listOK (by decide) (by decide)
        (listOK_check_bind (inValidator_ok n hpf args))
    | exact dispOK_of_listOK (by decide) (by decide)
        (listOK_check_bind (paletteValidator_ok n hpf args))
theorem exprOK_call {m : PM (List Expr)} {op : String} {t : Ty}
    (h : DispOK op m) :
    ExprOK (do
      let args ← m
      pure (Expr.call t op args)) := by
  constructor
  · intro s
    rcases hm : m s with ⟨r1, s1⟩
    have hc := h.1 s
    rw [hm] at hc
    cases r1 with
    | error e1 =>
      simp only [PM.bind_apply, hm]
      exact hc
    | ok args =>
      simp only [PM.bind_apply, hm, PM.pure_apply]
      exact hc
  · intro s e s' hh
    rcases hm : m s with ⟨r1, s1⟩
    cases r1 with
    | error e1 =>
      simp only [PM.bind_apply, hm, Prod.mk.injEq] at hh
      cases hh.1
    | ok args =>
      simp only [PM.bind_apply, hm, PM.pure_apply, Prod.mk.injEq,
        Except.ok.injEq] at hh
      obtain ⟨h1, h2⟩ := hh
      subst h1
      subst h2
      obtain ⟨hf, hg⟩ := h.2 s args s1 hm
      constructor
      · rw [hf]
        simp [exprHasOp]
      · rw [hg]
        simp [exprHasOp]

theorem parseF_flag : ∀ n, PF n := by
  intro n
  induction n with
  | zero =>
    intro v t
    simp only [parseF]
    exact exprOK_perr _
  | succ n ih =>
    intro v t
    match v with
    | .null =>
      simp only [parseF]
      exact exprOK_parseLit _ _
    | .bool b =>
      simp only [parseF]
      exact exprOK_parseLit _ _
    | .num q =>
      simp only [parseF]
      exact exprOK_parseLit _ _
    | .str s0 =>
      simp only [parseF]
      exact exprOK_parseLit _ _
    | .obj f =>
      simp only [parseF]
      exact exprOK_parseLit _ _
    | .arr [] =>
      simp only [parseF]
      exact exprOK_perr _
    | .arr (.str op :: rest) =>
      simp only [parseF]
      exact exprOK_call (dispatchOp_ok n ih op rest t)
    | .arr (.null :: rest) =>
      simp only [parseF]
      exact exprOK_parseLit _ _
    | .arr (.bool b :: rest) =>
      simp only [parseF]
      exact exprOK_parseLit _ _
    | .arr (.num q :: rest) =>
      simp only [parseF]
      exact exprOK_parseLit _ _
    | .arr (.arr l :: rest) =>
      simp only [parseF]
      exact exprOK_parseLit _ _
    | .arr (.obj f :: rest) =>
      simp only [parseF]
      exact exprOK_parseLit _ _
mutual

/-- Syntactic occurrence of an operator node `[op, …]` at any nesting depth
inside an encoded (pre-parse) expression value. -/
def encodedHasOp (op : String) : JSVal → Bool
  | .arr (.str s :: rest) => s == op || encodedListHasOp op rest
  | .arr items => encodedListHasOp op items
  | _ => false

/-- `encodedHasOp` over the children of an array. -/
def encodedListHasOp (op : String) : List JSVal → Bool
  | [] => false
  | v :: rest => encodedHasOp op v || encodedListHasOp op rest

end

/-- C6 counterexample: the encoded value `[["id"]]` contains an `id`
operator node (at nesting depth one), yet parsing it at string type
succeeds as a literal — `String([["id"]])` is `"id"` — and leaves
`featureId` false.  The claim's "flag iff the encoded expression contains
an operator node" therefore fails; the flag tracks the operators of the
*parsed* call nodes only. -/
theorem claim_C6_counterexample :
    encodedHasOp ("id") (JSVal.arr [JSVal.arr [JSVal.str ("id")]]) = true ∧
    parse (JSVal.arr [JSVal.arr [JSVal.str ("id")]]) Ty.string newParsingContext =
      (Except.ok (Expr.lit Ty.string (LV.s ("id"))), newParsingContext) ∧
    newParsingContext.featureId = false := by
  refine ⟨?_, ?_, rfl⟩
  · simp [encodedHasOp, encodedListHasOp]
  · simp [parse, parseF, JSVal.depth, JSVal.depthList, parseLit, jsToString,
      jsStrChars, arrJoinChars, arrElemChars]

/-- C6 (amended): after `parse(E, T, C)` succeeds on a fresh context `C`,
`C.featureId` is true iff the *returned* expression tree contains an `id`
call node, and `C.geometryType` iff it contains a `geometry-type` call
node.  (On the raw encoded value the equivalence fails, because arrays that
merely coerce to literals never reach `createCallExpressionParser`; see the
counterexample.) -/
theorem claim_C6_amended (v : JSVal) (t : Ty) (e : Expr) (s' : ParsingContext)
    (h : parse v t newParsingContext = (.ok e, s')) :
    s'.featureId = exprHasOp ("id") e ∧
    s'.geometryType = exprHasOp ("geometry-type") e := by
  obtain ⟨hf, hg⟩ := (parseF_flag (JSVal.depth v) v t).2 newParsingContext e s' h
  constructor
  · rw [hf]
    simp [newParsingContext]
  · rw [hg]
    simp [newParsingContext]

theorem claim_C6_witness :
    (⟨[], [], true, false⟩ : ParsingContext).featureId =
        exprHasOp ("id") (Expr.call Ty.string ("id") []) ∧
    (⟨[], [], true, false⟩ : ParsingContext).geometryType =
        exprHasOp ("geometry-type") (Expr.call Ty.string ("id") []) :=
  claim_C6_amended (JSVal.arr [JSVal.str ("id")]) Ty.string _ _ (by
    simp [parse, parseF, JSVal.depth, JSVal.depthList, dispatchOp, withNoArgs,
      usesFeatureId, newParsingContext])

/-- C10: every call to `parse`, returning or throwing, only grows the
parsing context: accessor entries already registered in `properties` or
`variables` keep their values, and neither `featureId` nor `geometryType`
is ever reset from true to false. -/
theorem claim_C10_context_monotone (v : JSVal) (t : Ty) (s : ParsingContext) :
    CtxLe s ((parse v t) s).2 :=
  (parseF_flag (JSVal.depth v) v t).1 s

theorem claim_C10_witness :
    CtxLe newParsingContext
      ((parse (JSVal.arr [JSVal.str ("get"), JSVal.str ("level")]) Ty.number)
        newParsingContext).2 :=
  claim_C10_context_monotone _ _ _
